import Mathlib

/-!
Shallow embedding of the ngio repository core, translated from the source:

* `src/ngio/ome_zarr_meta/ngio_specs/_axes.py` — axes canonicalization
  (`Axis`, `AxesSetup`, `validate_axes`, `AxesMapper`, transformation plans,
  `transform_array`, `transform_list`);
* `src/ngio/ome_zarr_meta/_handlers.py` — versioned schema dispatch
  (`GenericHandlersManager.get_handler`);
* `src/ngio/utils/_zarr_utils.py` — `ZarrGroupHandler.__init__` option checks;
* `src/ngio/hcs/plate.py` — the plate/well mutation protocol
  (`_add_image`, `_remove_image`, `_remove_well`, `get_image_path`).

Python machine-level caveats of the embedding: Python list indexing raises
`IndexError` out of range while the Lean model uses `List.getD`; Python
`list.insert` clamps an out-of-range position while `List.insertIdx` is the
identity there.  Every theorem below only exercises these operations at
in-range positions, where the semantics coincide.

The plate/well metadata documents (`NgioPlateMeta` / `NgioWellMeta`) are not
part of the provided sources; the definitions marked `Modelled from the spec:`
are taken from the specification's data-model and mutation-protocol sections.
-/

instance {ε : Type u} {α : Type v} [DecidableEq ε] [DecidableEq α] :
    DecidableEq (Except ε α) := fun x y =>
  match x, y with
  | Except.ok a, Except.ok b =>
    if h : a = b then Decidable.isTrue (by rw [h]) else Decidable.isFalse (by simp [h])
  | Except.error a, Except.error b =>
    if h : a = b then Decidable.isTrue (by rw [h]) else Decidable.isFalse (by simp [h])
  | Except.ok _, Except.error _ => Decidable.isFalse (by simp)
  | Except.error _, Except.ok _ => Decidable.isFalse (by simp)

/-- Error taxonomy of the repository (`ngio.utils._errors` plus the Python
builtin `ValueError` used directly in `plate.py`). -/
inductive NgioError where
  | validation (msg : String)
  | value (msg : String)
  | pythonValue (msg : String)
  | fileNotFound (msg : String)
deriving DecidableEq, Repr

/-- Allowed axis types (`AxisType` in `_axes.py`). -/
inductive AxisType where
  | channel
  | time
  | space
deriving DecidableEq, Repr

/-- Allowed space units (`SpaceUnits` in `_axes.py`). -/
inductive SpaceUnits where
  | nanometer | nm | micrometer | um | millimeter | mm | centimeter | cm
deriving DecidableEq, Repr

/-- Default space unit: `SpaceUnits.um`. -/
def SpaceUnits.default : SpaceUnits := SpaceUnits.um

/-- Allowed time units (`TimeUnits` in `_axes.py`). -/
inductive TimeUnits where
  | seconds | s
deriving DecidableEq, Repr

/-- Default time unit: `TimeUnits.s`. -/
def TimeUnits.default : TimeUnits := TimeUnits.s

/-- A unit is either a space unit or a time unit (the Python annotation
`SpaceUnits | TimeUnits`). -/
inductive AxisUnit where
  | space (u : SpaceUnits)
  | time (u : TimeUnits)
deriving DecidableEq, Repr

/-- Python `isinstance(unit, TimeUnits)` on an optional unit. -/
def isTimeUnit : Option AxisUnit → Bool
  | some (AxisUnit.time _) => true
  | _ => false

/-- Python `isinstance(unit, SpaceUnits)` on an optional unit. -/
def isSpaceUnit : Option AxisUnit → Bool
  | some (AxisUnit.space _) => true
  | _ => false

/-- Axis model (`Axis` in `_axes.py`): on-disk name with optional unit and
optional axis type. -/
structure Axis where
  on_disk_name : String
  unit : Option AxisUnit
  axis_type : Option AxisType
deriving DecidableEq, Repr

/-- Placeholder axis used as the (never reached) `List.getD` default when the
source indexes `on_disk_axes` at a position known to be in range. -/
def default_axis : Axis := ⟨"", none, none⟩

/-- `Axis.implicit_type_cast`: force `axis_type` to `cast_type` and repair the
unit when it does not belong to the family the target type requires. -/
def Axis.implicit_type_cast (self : Axis) (cast_type : AxisType) : Axis :=
  if cast_type = AxisType.time ∧ ¬ isTimeUnit self.unit then
    ⟨self.on_disk_name, some (AxisUnit.time TimeUnits.default), some AxisType.time⟩
  else if cast_type = AxisType.space ∧ ¬ isSpaceUnit self.unit then
    ⟨self.on_disk_name, some (AxisUnit.space SpaceUnits.default), some AxisType.space⟩
  else if cast_type = AxisType.channel ∧ self.unit ≠ none then
    ⟨self.on_disk_name, none, some AxisType.channel⟩
  else
    ⟨self.on_disk_name, self.unit, some cast_type⟩

/-- `Axis.canonical_axis_cast`: cast the axis to the type/unit family its
canonical slot expects, when they do not already match. -/
def Axis.canonical_axis_cast (self : Axis) (canonical_name : String) : Axis :=
  if canonical_name = "t" then
    if self.axis_type ≠ some AxisType.time ∨ ¬ isTimeUnit self.unit then
      self.implicit_type_cast AxisType.time
    else self
  else if canonical_name = "c" then
    if self.axis_type ≠ some AxisType.channel ∨ self.unit ≠ none then
      self.implicit_type_cast AxisType.channel
    else self
  else if canonical_name = "z" ∨ canonical_name = "y" ∨ canonical_name = "x" then
    if self.axis_type ≠ some AxisType.space ∨ ¬ isSpaceUnit self.unit then
      self.implicit_type_cast AxisType.space
    else self
  else self

/-- The canonical axes order `t, c, z, y, x` (`canonical_axes_order`). -/
def canonical_axes_order : List String := ["t", "c", "z", "y", "x"]

/-- `AxesSetup`: mapping from the five canonical keys to on-disk names, plus an
allow-list of non-canonical names.  The pydantic defaults are
`x="x", y="y", z="z", c="c", t="t", others=[]` (`default_axes_setup` below). -/
structure AxesSetup where
  x : String
  y : String
  z : String
  c : String
  t : String
  others : List String
deriving DecidableEq, Repr

/-- The default `AxesSetup()`. -/
def default_axes_setup : AxesSetup := ⟨"x", "y", "z", "c", "t", []⟩

/-- `axes_setup.model_dump(exclude={"others"})` as an ordered key/value list;
pydantic dumps fields in declaration order `x, y, z, c, t`. -/
def AxesSetup.dump_pairs (s : AxesSetup) : List (String × String) :=
  [("x", s.x), ("y", s.y), ("z", s.z), ("c", s.c), ("t", s.t)]

/-- Python `getattr(axes_setup, name)`; only ever called with a canonical key. -/
def AxesSetup.get (s : AxesSetup) (name : String) : String :=
  if name = "x" then s.x
  else if name = "y" then s.y
  else if name = "z" then s.z
  else if name = "c" then s.c
  else if name = "t" then s.t
  else name

/-- The list `[ax.on_disk_name for ax in axes]`. -/
def on_disk_names_of (axes : List Axis) : List String :=
  axes.map (fun ax => ax.on_disk_name)

/-- `_check_unique_names`: every on-disk name must be unique. -/
def check_unique_names (axes : List Axis) : Except NgioError Unit :=
  if (on_disk_names_of axes).Nodup then Except.ok ()
  else Except.error (NgioError.validation "All axes must be unique. But found duplicates axes")

/-- `_check_non_canonical_axes`: `others` must be empty unless
`allow_non_canonical_axes` is set. -/
def check_non_canonical_axes (axes_setup : AxesSetup) (allow_non_canonical_axes : Bool) :
    Except NgioError Unit :=
  if ¬ allow_non_canonical_axes ∧ axes_setup.others.length > 0 then
    Except.error (NgioError.validation "Unknown axes. Please set allow_non_canonical_axes=True to ignore them")
  else Except.ok ()

/-- The known names `[*dump.values(), *others]` used by `_check_axes_validity`. -/
def all_known_axes (axes_setup : AxesSetup) : List String :=
  axes_setup.dump_pairs.map Prod.snd ++ axes_setup.others

/-- `_check_axes_validity`: every on-disk name must be a known name; the source
raises on the first offending axis. -/
def check_axes_validity (axes : List Axis) (axes_setup : AxesSetup) : Except NgioError Unit :=
  match axes.find? (fun ax => ¬ (all_known_axes axes_setup).contains ax.on_disk_name) with
  | some ax => Except.error (NgioError.validation s!"Invalid axis name {ax.on_disk_name}")
  | none => Except.ok ()

/-- The expected strict order: canonical keys mapped through the setup, kept
when present among the on-disk names (`_check_canonical_order`'s loop). -/
def canonical_order_filtered (axes : List Axis) (axes_setup : AxesSetup) : List String :=
  (canonical_axes_order.map (fun name => axes_setup.get name)).filter
    (fun mapped_name => (on_disk_names_of axes).contains mapped_name)

/-- `_check_canonical_order`: under `strict_canonical_order` the on-disk
sequence must equal the canonically ordered sequence of present axes. -/
def check_canonical_order (axes : List Axis) (axes_setup : AxesSetup)
    (strict_canonical_order : Bool) : Except NgioError Unit :=
  if ¬ strict_canonical_order then Except.ok ()
  else if on_disk_names_of axes = canonical_order_filtered axes axes_setup then Except.ok ()
  else Except.error (NgioError.validation "Invalid axes order. The axes must be in the canonical order.")

/-- `validate_axes`: the construction-time validation pipeline, in source
order. -/
def validate_axes (axes : List Axis) (axes_setup : AxesSetup)
    (allow_non_canonical_axes strict_canonical_order : Bool) : Except NgioError Unit := do
  if allow_non_canonical_axes ∧ strict_canonical_order then
    throw (NgioError.validation "allow_non_canonical_axes and strict_canonical_order cannot be true at the same time.")
  check_unique_names axes
  check_non_canonical_axes axes_setup allow_non_canonical_axes
  check_axes_validity axes axes_setup
  check_canonical_order axes axes_setup strict_canonical_order

/-- Transformation plan steps (`AxesTranspose` / `AxesExpand` / `AxesSqueeze`). -/
inductive AxesTransformation where
  | transpose (axes : List Nat)
  | expand (axes : List Nat)
  | squeeze (axes : List Nat)
deriving DecidableEq, Repr

/-- `AxesMapper._compute_name_mapping`: canonical keys map to their configured
on-disk name when present (else `none`); every on-disk name not already a key
is then added as an identity entry.  Modelled as an insertion-ordered
association list, like a Python dict. -/
def compute_name_mapping (axes : List Axis) (axes_setup : AxesSetup) :
    List (String × Option String) :=
  let names := on_disk_names_of axes
  let canon := axes_setup.dump_pairs.map
    (fun kv => (kv.1, if names.contains kv.2 then some kv.2 else none))
  names.foldl
    (fun acc d => if (acc.map Prod.fst).contains d then acc else acc ++ [(d, some d)])
    canon

/-- `AxesMapper._compute_index_mapping`: each mapped name is replaced by its
position in the on-disk name list (the source's `list.index`, always found for
a computed mapping). -/
def compute_index_mapping (name_mapping : List (String × Option String))
    (names : List String) : List (String × Option Nat) :=
  name_mapping.map (fun kv => (kv.1, kv.2.map (fun v => names.indexOf v)))

/-- The `AxesMapper` state after construction. -/
structure AxesMapper where
  allow_non_canonical_axes : Bool
  strict_canonical_order : Bool
  extended_canonical_order : List String
  on_disk_axes : List Axis
  axes_setup : AxesSetup
  name_mapping : List (String × Option String)
  index_mapping : List (String × Option Nat)
deriving DecidableEq, Repr

/-- `AxesMapper.on_disk_axes_names` property. -/
def AxesMapper.on_disk_axes_names (self : AxesMapper) : List String :=
  on_disk_names_of self.on_disk_axes

/-- `AxesMapper.get_index`: the on-disk index for a recognized key (`none` for
a recognized-but-absent canonical key), a `NgioValueError` otherwise. -/
def AxesMapper.get_index (self : AxesMapper) (name : String) :
    Except NgioError (Option Nat) :=
  match self.index_mapping.lookup name with
  | none => Except.error (NgioError.value s!"Invalid axis name {name}")
  | some v => Except.ok v

/-- `AxesMapper.get_axis`: composes `get_index` and indexes `on_disk_axes`. -/
def AxesMapper.get_axis (self : AxesMapper) (name : String) :
    Except NgioError (Option Axis) :=
  match self.get_index name with
  | Except.error e => Except.error e
  | Except.ok none => Except.ok none
  | Except.ok (some i) => Except.ok (some (self.on_disk_axes.getD i default_axis))

/-- `AxesMapper.validate_axex_type` (source spelling): rewrite each on-disk
axis through `canonical_axis_cast` for the first canonical slot it occupies,
leaving axes that occupy no canonical slot unchanged. -/
def AxesMapper.validate_axex_type (self : AxesMapper) : AxesMapper :=
  { self with
    on_disk_axes := self.on_disk_axes.map (fun ax =>
      match canonical_axes_order.find?
          (fun name => decide (self.get_axis name = Except.ok (some ax))) with
      | some name => ax.canonical_axis_cast name
      | none => ax) }

/-- The mapper record built by `AxesMapper.__init__` after validation:
mappings computed, then the type-coercion pass applied. -/
def build_mapper (on_disk_axes : List Axis) (axes_setup : AxesSetup)
    (allow_non_canonical_axes strict_canonical_order : Bool) : AxesMapper :=
  let name_mapping := compute_name_mapping on_disk_axes axes_setup
  let index_mapping := compute_index_mapping name_mapping (on_disk_names_of on_disk_axes)
  AxesMapper.validate_axex_type
    { allow_non_canonical_axes := allow_non_canonical_axes
      strict_canonical_order := strict_canonical_order
      extended_canonical_order := axes_setup.others ++ canonical_axes_order
      on_disk_axes := on_disk_axes
      axes_setup := axes_setup
      name_mapping := name_mapping
      index_mapping := index_mapping }

/-- `AxesMapper.__init__`: validate, then build the mapper. -/
def AxesMapper.init (on_disk_axes : List Axis) (axes_setup : AxesSetup)
    (allow_non_canonical_axes strict_canonical_order : Bool) :
    Except NgioError AxesMapper := do
  validate_axes on_disk_axes axes_setup allow_non_canonical_axes strict_canonical_order
  pure (build_mapper on_disk_axes axes_setup allow_non_canonical_axes strict_canonical_order)

/-- First loop of `AxesMapper._change_order` over the remaining requested
names, carrying the `unique_names` accumulator: reject unrecognized names and
duplicate resolutions, collect the resolved unique names in order. -/
def unique_go (self : AxesMapper) : List String → List String → Except NgioError (List String)
  | [], acc => Except.ok acc
  | name :: rest, acc =>
    if (self.index_mapping.lookup name).isNone then
      Except.error (NgioError.value s!"Invalid axis name {name}")
    else
      match (self.name_mapping.lookup name).join with
      | none => unique_go self rest acc
      | some u =>
        if acc.contains u then
          Except.error (NgioError.value "Duplicate axis name, two or more were found. Please provide unique names.")
        else unique_go self rest (acc ++ [u])

/-- First loop of `_change_order`, started with an empty accumulator. -/
def unique_names_pass (self : AxesMapper) (names : List String) :
    Except NgioError (List String) :=
  unique_go self names []

/-- The `_insert` positions of `_change_order`'s second loop: the enumeration
positions (counting from `k`) of requested names whose index is absent. -/
def change_order_inserts (self : AxesMapper) : Nat → List String → List Nat
  | _, [] => []
  | k, name :: rest =>
    match (self.index_mapping.lookup name).join with
    | none => k :: change_order_inserts self (k + 1) rest
    | some _ => change_order_inserts self (k + 1) rest

/-- Second loop of `_change_order`: split the enumerated requested names into
transpose indices (present, in request order) and insertion positions
(absent). -/
def change_order_split (self : AxesMapper) (names : List String) :
    List Nat × List Nat :=
  (names.filterMap (fun name => (self.index_mapping.lookup name).join),
   change_order_inserts self 0 names)

/-- `AxesMapper._change_order`. -/
def AxesMapper.change_order (self : AxesMapper) (names : List String) :
    Except NgioError (List Nat × List Nat) := do
  let unique_names ← unique_names_pass self names
  if self.on_disk_axes_names.length > unique_names.length then
    throw (NgioError.value "Some axes where not queried. Please provide the missing axes")
  pure (change_order_split self names)

/-- `np.argsort` on a list of naturals.  numpy's sort is modelled with
`List.insertionSort`; for the pairwise-distinct keys produced by
`_change_order` every correct sort yields the same result. -/
def np_argsort (l : List Nat) : List Nat :=
  (List.range l.length).insertionSort (fun i j => l.getD i 0 ≤ l.getD j 0)

/-- `AxesMapper.to_order`: `(Transpose(indices), Expand(insert))`. -/
def AxesMapper.to_order (self : AxesMapper) (names : List String) :
    Except NgioError (List AxesTransformation) := do
  let pr ← self.change_order names
  pure [AxesTransformation.transpose pr.1, AxesTransformation.expand pr.2]

/-- `AxesMapper.from_order`: `(Squeeze(insert), Transpose(argsort(indices)))`. -/
def AxesMapper.from_order (self : AxesMapper) (names : List String) :
    Except NgioError (List AxesTransformation) := do
  let pr ← self.change_order names
  pure [AxesTransformation.squeeze pr.2, AxesTransformation.transpose (np_argsort pr.1)]

/-- `AxesMapper.to_canonical`: reorder to `[*others, t, c, z, y, x]`. -/
def AxesMapper.to_canonical (self : AxesMapper) : Except NgioError (List AxesTransformation) :=
  self.to_order self.extended_canonical_order

/-- `AxesMapper.from_canonical`: inverse of `to_canonical`. -/
def AxesMapper.from_canonical (self : AxesMapper) : Except NgioError (List AxesTransformation) :=
  self.from_order self.extended_canonical_order

/-- Sequential insertions of `transform_list`'s Expand branch:
`for ax in axes: input_list.insert(ax, default)`. -/
def apply_expand_list {α : Type u} (l : List α) (default : α) (axes : List Nat) : List α :=
  axes.foldl (fun acc ax => acc.insertIdx ax default) l

/-- Offset-removing pops of `transform_list`'s Squeeze branch:
`for offset, ax in enumerate(axes): input_list.pop(ax - offset)`. -/
def apply_squeeze_list {α : Type u} (l : List α) (axes : List Nat) : List α :=
  axes.enum.foldl (fun acc oa => acc.eraseIdx (oa.2 - oa.1)) l

/-- `transform_list`: apply a transformation plan to a per-axis metadata list,
with a caller-supplied default for inserted positions. -/
def transform_list {α : Type u} (input_list : List α) (default : α)
    (operations : List AxesTransformation) : List α :=
  operations.foldl
    (fun l op =>
      match op with
      | AxesTransformation.transpose axes => axes.map (fun i => l.getD i default)
      | AxesTransformation.expand axes => apply_expand_list l default axes
      | AxesTransformation.squeeze axes => apply_squeeze_list l axes)
    input_list

/-- Semantic model of a numpy ndarray: a shape together with a total map from
(multi-)indices to values; only indices of length `shape.length` are
meaningful. -/
structure NpArray (α : Type u) where
  shape : List Nat
  data : List Nat → α

/-- `np.transpose(a, axes)` for `axes` a permutation of `range(a.ndim)`:
output dimension `j` is input dimension `axes[j]`. -/
def np_transpose {α : Type u} (a : NpArray α) (axes : List Nat) : NpArray α :=
  { shape := axes.map (fun i => a.shape.getD i 0),
    data := fun idx =>
      a.data ((List.range a.shape.length).map (fun d => idx.getD (axes.indexOf d) 0)) }

/-- `np.expand_dims(a, axis=axes)` for ascending in-range output positions:
singleton dimensions appear at positions `axes` of the result. -/
def np_expand_dims {α : Type u} (a : NpArray α) (axes : List Nat) : NpArray α :=
  { shape := apply_expand_list a.shape 1 axes,
    data := fun idx => a.data (apply_squeeze_list idx axes) }

/-- `np.squeeze(a, axis=axes)` for ascending in-range input positions of
length-1 dimensions. -/
def np_squeeze {α : Type u} (a : NpArray α) (axes : List Nat) : NpArray α :=
  { shape := apply_squeeze_list a.shape axes,
    data := fun idx => a.data (axes.foldl (fun acc ax => acc.insertIdx ax 0) idx) }

/-- `transform_array`: apply a transformation plan to an array. -/
def transform_array {α : Type u} (array : NpArray α)
    (operations : List AxesTransformation) : NpArray α :=
  operations.foldl
    (fun a op =>
      match op with
      | AxesTransformation.transpose axes => np_transpose a axes
      | AxesTransformation.expand axes => np_expand_dims a axes
      | AxesTransformation.squeeze axes => np_squeeze a axes)
    array

/-- Iteration core of `GenericHandlersManager.get_handler`: try each
`(version, converter)` pair in order, accumulating per-version validation
errors; the first success wins, exhaustion raises the aggregate. -/
def get_handler_go {Raw E D : Type u} (raw : Raw) :
    List (String × (Raw → Except E D)) → List (String × E) →
    Except (List (String × E)) (String × D)
  | [], errs => Except.error errs
  | (v, h) :: rest, errs =>
    match h raw with
    | Except.error e => get_handler_go raw rest (errs ++ [(v, e)])
    | Except.ok meta => Except.ok (v, meta)

/-- `GenericHandlersManager.get_handler`: the registry is kept in registration
order, and dispatch iterates `reversed(items())`, i.e. most recently
registered first; a success returns the handler bound to that version. -/
def get_handler {Raw E D : Type u} (handlers : List (String × (Raw → Except E D)))
    (raw : Raw) : Except (List (String × E)) (String × D) :=
  get_handler_go raw handlers.reverse []

/-- Insertion-order-preserving association update (Python dict assignment). -/
def assoc_set {β : Type u} : List (String × β) → String → β → List (String × β)
  | [], k, v => [(k, v)]
  | (k0, v0) :: rest, k, v =>
    if k0 = k then (k, v) :: rest else (k0, v0) :: assoc_set rest k v

/-- `GenericHandlersManager.add_handler`: re-registering an existing version
fails unless `overwrite` is set. -/
def add_handler {H : Type u} (handlers : List (String × H)) (key : String)
    (handler : H) (overwrite : Bool) : Except NgioError (List (String × H)) :=
  if (handlers.map Prod.fst).contains key ∧ ¬ overwrite then
    Except.error (NgioError.value s!"Image handler for version {key} already exists.")
  else Except.ok (assoc_set handlers key handler)

/-- The `AccessModeLiteral` type of `_zarr_utils.py`. -/
inductive AccessMode where
  | r | rPlus | w | wMinus | a
deriving DecidableEq, Repr

/-- The string literal an `AccessMode` stands for. -/
def AccessMode.toStr : AccessMode → String
  | AccessMode.r => "r"
  | AccessMode.rPlus => "r+"
  | AccessMode.w => "w"
  | AccessMode.wMinus => "w-"
  | AccessMode.a => "a"

/-- Message of the cache/parallel_safe mutual-exclusion `NgioValueError`. -/
def mutual_exclusive_msg : String :=
  "The cache and parallel_safe options are mutually exclusive.If you want to use the lock mechanism, you should not use the cache."

/-- Message of the store-must-be-a-path `NgioValueError`. -/
def store_needs_path_msg : String :=
  "The store needs to be a path to use the lock mechanism."

/-- The `ZarrGroupHandler` state built by `__init__`; the wrapped zarr group
is abstracted to a type parameter `G`. -/
structure ZarrGroupHandler (G : Type) where
  group : G
  mode : AccessMode
  store : String
  use_cache : Bool
  parallel_safe : Bool
  lock_path : Option String
deriving Repr

/-- `ZarrGroupHandler.__init__`: option checks in source order, then
`open_group_wrapper` (abstracted as `open_result`), then lock-path setup.
`store_is_path` abstracts `isinstance(_store, str | Path)`. -/
def zarr_group_handler_init {G : Type} (open_result : Except NgioError G)
    (store : String) (store_is_path : Bool) (cache : Bool) (mode : AccessMode)
    (parallel_safe : Bool) : Except NgioError (ZarrGroupHandler G) := do
  if ¬ (["r", "r+", "w", "w-", "a"].contains mode.toStr) then
    throw (NgioError.value s!"Mode is not supported.")
  if parallel_safe ∧ cache then
    throw (NgioError.value mutual_exclusive_msg)
  let g ← open_result
  let lock_path ←
    if parallel_safe then
      if ¬ store_is_path then throw (NgioError.value store_needs_path_msg)
      else pure (some (store ++ ".lock"))
    else pure (none : Option String)
  pure { group := g, mode := mode, store := store, use_cache := cache,
         parallel_safe := parallel_safe, lock_path := lock_path }

/-- Modelled from the spec: an image reference inside a `WellDocument`
(`ImageRef{path, acquisition_id}`); `NgioWellMeta` is not under `src/`. -/
structure ImageRef where
  path : String
  acquisition_id : Option Int
deriving DecidableEq, Repr

/-- Modelled from the spec: a well reference inside a `PlateDocument`
(`WellRef{path, row, column, acquisition_id}` with `path == row ++ "/" ++ column`). -/
structure WellRef where
  path : String
  row : String
  column : String
  acquisition_id : Option Int
deriving DecidableEq, Repr

/-- Modelled from the spec: the plate-level document (`NgioPlateMeta` is not
under `src/`): rows, columns, acquisitions and the ordered well list. -/
structure PlateDocument where
  rows : List String
  columns : List String
  acquisitions : List (Int × Option String)
  wells : List WellRef
deriving DecidableEq, Repr

/-- Modelled from the spec: the well-level document (`NgioWellMeta` is not
under `src/`): the ordered image list. -/
structure WellDocument where
  images : List ImageRef
deriving DecidableEq, Repr

/-- Modelled from the spec: `NgioWellMeta.paths(None)` — all image paths of
the well. -/
def WellDocument.paths (w : WellDocument) : List String :=
  w.images.map (fun img => img.path)

/-- Modelled from the spec: `NgioWellMeta.remove_image` — remove the matching
image reference, failing with not-found when the path is absent. -/
def WellDocument.remove_image (w : WellDocument) (path : String) :
    Except NgioError WellDocument :=
  if w.paths.contains path then
    Except.ok ⟨w.images.filter (fun img => img.path ≠ path)⟩
  else Except.error (NgioError.fileNotFound s!"Image {path} not found in the well.")

/-- Modelled from the spec: `NgioWellMeta.add_image` — append the new image
reference (the duplicate-path policy is an open question in the spec; plain
append is modelled). -/
def WellDocument.add_image (w : WellDocument) (path : String)
    (acquisition : Option Int) : WellDocument :=
  ⟨w.images ++ [⟨path, acquisition⟩]⟩

/-- Modelled from the spec: the well path invariant `path == f"{row}/{column}"`
used by `NgioPlateMeta.get_well_path`; the column is modelled as the string it
is formatted to. -/
def well_path_of (row column : String) : String :=
  row ++ "/" ++ column

/-- Modelled from the spec: `NgioPlateMeta.add_well` — add the target well if
not already present (identified by `(row, column)`, idempotent), registering
its row, column and acquisition. -/
def PlateDocument.add_well (p : PlateDocument) (row column : String)
    (acquisition_id : Option Int) (acquisition_name : Option String) : PlateDocument :=
  if (p.wells.map (fun w => w.path)).contains (well_path_of row column) then p
  else
    { rows := if p.rows.contains row then p.rows else p.rows ++ [row]
      columns := if p.columns.contains column then p.columns else p.columns ++ [column]
      acquisitions :=
        match acquisition_id with
        | none => p.acquisitions
        | some i =>
          if (p.acquisitions.map Prod.fst).contains i then p.acquisitions
          else p.acquisitions ++ [(i, acquisition_name)]
      wells := p.wells ++ [⟨well_path_of row column, row, column, acquisition_id⟩] }

/-- Modelled from the spec: `NgioPlateMeta.remove_well` — drop the well's
entry from the ordered well list. -/
def PlateDocument.remove_well (p : PlateDocument) (row column : String) : PlateDocument :=
  { p with wells := p.wells.filter (fun w => w.path ≠ well_path_of row column) }

/-- Single-process model of the store state behind a plate: the persisted
plate document, the persisted well documents keyed by well path, and the
advisory-lock hold counters keyed by lock-file path (the `filelock.FileLock`
of `_zarr_utils.py` is re-entrant per process and uncontended in a single
process, so acquisition always succeeds). -/
structure PlateState where
  plate : PlateDocument
  well_docs : List (String × WellDocument)
  locks : List (String × Nat)
deriving DecidableEq, Repr

/-- The persisted documents of a state, the observable the mutation protocol
is specified over. -/
def PlateState.docs (st : PlateState) : PlateDocument × List (String × WellDocument) :=
  (st.plate, st.well_docs)

/-- Increment a lock hold counter (acquisition of a `FileLock`). -/
def lock_acquire (st : PlateState) (path : String) : PlateState :=
  { st with locks :=
      match st.locks.lookup path with
      | none => assoc_set st.locks path 1
      | some n => assoc_set st.locks path (n + 1) }

/-- Decrement a lock hold counter (release of a `FileLock`). -/
def lock_release (st : PlateState) (path : String) : PlateState :=
  { st with locks :=
      match st.locks.lookup path with
      | none => st.locks
      | some n => assoc_set st.locks path (n - 1) }

/-- The `with lock:` block of `plate.py`: under `atomic` the real file lock is
entered and exited around the body, otherwise the body runs under the no-op
`MockLock`.  (In this error monad a failing body carries no state, matching
the fact that every failure point of the modelled operations precedes any
persisted write.) -/
def with_lock {α : Type} (atomic : Bool) (lock_path : String) (st : PlateState)
    (body : PlateState → Except NgioError (PlateState × α)) :
    Except NgioError (PlateState × α) :=
  if atomic then do
    let st1 := lock_acquire st lock_path
    let pr ← body st1
    pure (lock_release pr.1 lock_path, pr.2)
  else body st

/-- Lock-file path of the plate root group (`f"{store}.lock"`). -/
def plate_lock_path : String := "plate.lock"

/-- Lock-file path of a well group. -/
def well_lock_path (wp : String) : String := wp ++ ".lock"

/-- Loading a well's metadata through the dispatcher (`find_well_meta_handler`
via `OmeZarrWell`): fails with a validation error when no document exists. -/
def load_well_doc (st : PlateState) (path : String) : Except NgioError WellDocument :=
  match st.well_docs.lookup path with
  | some w => Except.ok w
  | none => Except.error (NgioError.validation s!"Could not load well metadata at {path}.")

/-- Persisting a well document (`write_meta` + cache invalidation). -/
def write_well_doc (st : PlateState) (path : String) (w : WellDocument) : PlateState :=
  { st with well_docs := assoc_set st.well_docs path w }

/-- `OmeZarrPlate.get_image_path`: resolve the well, then fail with a Python
`ValueError` when the image path is absent, else return the joined path. -/
def plate_get_image_path (st : PlateState) (row column path : String) :
    Except NgioError String := do
  let well ← load_well_doc st (well_path_of row column)
  if ¬ well.paths.contains path then
    throw (NgioError.pythonValue s!"Image {path} does not exist in well {row}{column}")
  pure (well_path_of row column ++ "/" ++ path)

/-- `OmeZarrPlate._add_image`: phase 1 adds the well to the plate document
under the plate lock; phase 2 initializes or loads the well document and
appends the image reference under the well lock. -/
def plate_add_image (st : PlateState) (row column image_path : String)
    (acquisition_id : Option Int) (acquisition_name : Option String)
    (atomic : Bool) : Except NgioError PlateState := do
  let pr1 ← with_lock atomic plate_lock_path st (fun st0 =>
    Except.ok ({ st0 with plate := st0.plate.add_well row column acquisition_id acquisition_name }, ()))
  let st1 := pr1.1
  let wp := well_path_of row column
  let pr2 ← with_lock atomic (well_lock_path wp) st1 (fun st0 =>
    let well_meta := (st0.well_docs.lookup wp).getD ⟨[]⟩
    let well_meta := well_meta.add_image image_path acquisition_id
    Except.ok (write_well_doc st0 wp well_meta, ()))
  pure pr2.1

/-- `OmeZarrPlate._remove_well`: drop the well from the plate document under
the plate lock. -/
def plate_remove_well (st : PlateState) (row column : String) (atomic : Bool) :
    Except NgioError PlateState := do
  let pr ← with_lock atomic plate_lock_path st (fun st0 =>
    Except.ok ({ st0 with plate := st0.plate.remove_well row column }, ()))
  pure pr.1

/-- `OmeZarrPlate._remove_image`: resolve and load the well, then under the
well lock remove the image reference (not-found when absent), persist, and
cascade into `_remove_well` exactly when the image list became empty. -/
def plate_remove_image (st : PlateState) (row column image_path : String)
    (atomic : Bool) : Except NgioError PlateState := do
  let well ← load_well_doc st (well_path_of row column)
  let pr ← with_lock atomic (well_lock_path (well_path_of row column)) st (fun st0 => do
    let well_meta ← well.remove_image image_path
    let st1 := write_well_doc st0 (well_path_of row column) well_meta
    let st2 ←
      if well_meta.paths.length = 0 then plate_remove_well st1 row column atomic
      else pure st1
    pure (st2, ()))
  pure pr.1

/-- `OmeZarrPlate.atomic_add_image` ("parallel safe version of add_image"). -/
def plate_atomic_add_image (st : PlateState) (row column image_path : String)
    (acquisition_id : Option Int) (acquisition_name : Option String) :
    Except NgioError PlateState :=
  plate_add_image st row column image_path acquisition_id acquisition_name true

/-- `OmeZarrPlate.add_image`. -/
def plate_add_image_plain (st : PlateState) (row column image_path : String)
    (acquisition_id : Option Int) (acquisition_name : Option String) :
    Except NgioError PlateState :=
  plate_add_image st row column image_path acquisition_id acquisition_name false

/-- `OmeZarrPlate.atomic_remove_image` ("parallel safe version of remove_image"). -/
def plate_atomic_remove_image (st : PlateState) (row column image_path : String) :
    Except NgioError PlateState :=
  plate_remove_image st row column image_path true

/-- `OmeZarrPlate.remove_image`. -/
def plate_remove_image_plain (st : PlateState) (row column image_path : String) :
    Except NgioError PlateState :=
  plate_remove_image st row column image_path false

/-- Discriminator: is this result the not-found error kind? -/
def is_not_found_error {α : Type u} : Except NgioError α → Bool
  | Except.error (NgioError.fileNotFound _) => true
  | _ => false

/-- Recursion form of `apply_squeeze_list`: pop at `a - k` and continue with
the offset incremented. -/
def squeeze_go {α : Type u} : List Nat → Nat → List α → List α
  | [], _, l => l
  | a :: rest, k, l => squeeze_go rest (k + 1) (l.eraseIdx (a - k))

/-- Validity of a list of insertion positions against a starting length:
positions are strictly increasing and each is at most the length of the list
it is inserted into (which has grown by the earlier insertions). -/
def InsPosOK : List Nat → Nat → Prop
  | [], _ => True
  | a :: rest, n => a ≤ n ∧ (∀ b ∈ rest, a < b) ∧ InsPosOK rest (n + 1)

/-- The on-disk names a request resolves to through the name mapping, in
request order. -/
def resolved_names (M : AxesMapper) (names : List String) : List String :=
  names.filterMap (fun nm => (M.name_mapping.lookup nm).join)

theorem except_bind_ok {ε α β : Type u} (a : α) (f : α → Except ε β) :
    (Except.ok a >>= f) = f a := rfl

theorem except_bind_error {ε α β : Type u} (e : ε) (f : α → Except ε β) :
    ((Except.error e : Except ε α) >>= f) = Except.error e := rfl

theorem implicit_type_cast_name (ax : Axis) (t : AxisType) :
    (ax.implicit_type_cast t).on_disk_name = ax.on_disk_name := by
  unfold Axis.implicit_type_cast
  repeat' split
  all_goals rfl

theorem canonical_axis_cast_name (ax : Axis) (k : String) :
    (ax.canonical_axis_cast k).on_disk_name = ax.on_disk_name := by
  unfold Axis.canonical_axis_cast
  repeat' split
  all_goals first | rfl | apply implicit_type_cast_name

theorem validate_axex_type_names (m : AxesMapper) :
    on_disk_names_of m.validate_axex_type.on_disk_axes = on_disk_names_of m.on_disk_axes := by
  unfold AxesMapper.validate_axex_type on_disk_names_of
  simp only [List.map_map]
  apply List.map_congr_left
  intro ax _
  simp only [Function.comp_apply]
  split
  · apply canonical_axis_cast_name
  · rfl

theorem validate_axex_type_length (m : AxesMapper) :
    m.validate_axex_type.on_disk_axes.length = m.on_disk_axes.length := by
  unfold AxesMapper.validate_axex_type
  simp

theorem init_ok_iff (axes : List Axis) (setup : AxesSetup) (a s : Bool) (M : AxesMapper) :
    AxesMapper.init axes setup a s = Except.ok M ↔
      (validate_axes axes setup a s = Except.ok () ∧ M = build_mapper axes setup a s) := by
  unfold AxesMapper.init
  cases h : validate_axes axes setup a s with
  | error e => simp [h, except_bind_error]
  | ok u =>
    cases u
    simp [h, except_bind_ok]
    constructor
    · intro h1; exact h1.symm
    · intro h1; exact h1.symm

theorem build_mapper_name_mapping (axes : List Axis) (setup : AxesSetup) (a s : Bool) :
    (build_mapper axes setup a s).name_mapping = compute_name_mapping axes setup := rfl

theorem build_mapper_index_mapping (axes : List Axis) (setup : AxesSetup) (a s : Bool) :
    (build_mapper axes setup a s).index_mapping =
      compute_index_mapping (compute_name_mapping axes setup) (on_disk_names_of axes) := rfl

theorem build_mapper_extended (axes : List Axis) (setup : AxesSetup) (a s : Bool) :
    (build_mapper axes setup a s).extended_canonical_order =
      setup.others ++ canonical_axes_order := rfl

theorem build_mapper_names (axes : List Axis) (setup : AxesSetup) (a s : Bool) :
    on_disk_names_of (build_mapper axes setup a s).on_disk_axes = on_disk_names_of axes := by
  unfold build_mapper
  exact validate_axex_type_names _

theorem build_mapper_length (axes : List Axis) (setup : AxesSetup) (a s : Bool) :
    (build_mapper axes setup a s).on_disk_axes.length = axes.length := by
  have h := build_mapper_names axes setup a s
  have h1 : (on_disk_names_of (build_mapper axes setup a s).on_disk_axes).length
      = (on_disk_names_of axes).length := by rw [h]
  simpa [on_disk_names_of] using h1

theorem lookup_map_values {β γ : Type u} (l : List (String × β)) (f : β → γ) (k : String) :
    (l.map (fun kv => (kv.1, f kv.2))).lookup k = (l.lookup k).map f := by
  induction l with
  | nil => rfl
  | cons kv rest ih =>
    by_cases h : (k == kv.1) = true
    · simp [List.lookup, h]
    · rw [Bool.not_eq_true] at h
      simp [List.lookup, h, ih]

theorem lookup_mem {β : Type u} {l : List (String × β)} {k : String} {v : β}
    (h : l.lookup k = some v) : (k, v) ∈ l := by
  induction l with
  | nil => simp [List.lookup] at h
  | cons kv rest ih =>
    by_cases hb : (k == kv.1) = true
    · simp [List.lookup, hb] at h
      have hk : k = kv.1 := by simpa using hb
      subst hk
      rw [← h]
      exact List.mem_cons_self _ _
    · rw [Bool.not_eq_true] at hb
      simp [List.lookup, hb] at h
      exact List.mem_cons_of_mem _ (ih h)

theorem compute_name_mapping_foldl_mem (S : List String) :
    ∀ (names : List String) (acc : List (String × Option String)),
      (∀ kv ∈ acc, ∀ u, kv.2 = some u → u ∈ S) →
      (∀ d ∈ names, d ∈ S) →
      ∀ kv ∈ names.foldl
        (fun acc d => if (acc.map Prod.fst).contains d then acc else acc ++ [(d, some d)]) acc,
        ∀ u, kv.2 = some u → u ∈ S := by
  intro names
  induction names with
  | nil => intro acc hacc _ kv hkv; exact hacc kv hkv
  | cons d rest ih =>
    intro acc hacc hnames kv hkv
    simp only [List.foldl_cons] at hkv
    refine ih _ ?_ ?_ kv hkv
    · intro kv2 hkv2 u hu
      split at hkv2
      · exact hacc kv2 hkv2 u hu
      · rcases List.mem_append.1 hkv2 with h2 | h2
        · exact hacc kv2 h2 u hu
        · simp only [List.mem_singleton] at h2
          subst h2
          simp only at hu
          cases hu
          exact hnames d (List.mem_cons_self _ _)
    · intro d2 hd2
      exact hnames d2 (List.mem_cons_of_mem _ hd2)

theorem compute_name_mapping_some_mem {axes : List Axis} {setup : AxesSetup}
    {k u : String} (h : (k, some u) ∈ compute_name_mapping axes setup) :
    u ∈ on_disk_names_of axes := by
  unfold compute_name_mapping at h
  refine compute_name_mapping_foldl_mem (on_disk_names_of axes) _ _ ?_ ?_ (k, some u) h u rfl
  · intro kv hkv v hv
    simp only [List.mem_map] at hkv
    obtain ⟨kv0, _, hkv0⟩ := hkv
    rw [← hkv0] at hv
    simp only at hv
    split at hv
    · rename_i hc
      cases hv
      simpa using hc
    · cases hv
  · intro d hd
    exact hd

theorem option_join_map_map {α β : Type u} (f : α → β) (ov : Option (Option α)) :
    (ov.map (Option.map f)).join = ov.join.map f := by
  cases ov with
  | none => rfl
  | some o => cases o <;> rfl

theorem compute_index_mapping_lookup (nm : List (String × Option String))
    (names : List String) (k : String) :
    (compute_index_mapping nm names).lookup k
      = (nm.lookup k).map (Option.map (fun v => names.indexOf v)) :=
  lookup_map_values nm _ k

theorem mapper_index_join (axes : List Axis) (setup : AxesSetup) (a s : Bool) (k : String) :
    ((build_mapper axes setup a s).index_mapping.lookup k).join
      = ((build_mapper axes setup a s).name_mapping.lookup k).join.map
          (fun v => (on_disk_names_of axes).indexOf v) := by
  rw [build_mapper_index_mapping, build_mapper_name_mapping,
    compute_index_mapping_lookup, option_join_map_map]

theorem mapper_name_lookup_mem {axes : List Axis} {setup : AxesSetup} {a s : Bool}
    {k u : String}
    (h : (build_mapper axes setup a s).name_mapping.lookup k = some (some u)) :
    u ∈ on_disk_names_of axes := by
  rw [build_mapper_name_mapping] at h
  exact compute_name_mapping_some_mem (lookup_mem h)

theorem unique_go_ok (M : AxesMapper) :
    ∀ (E acc U : List String), unique_go M E acc = Except.ok U →
      U = acc ++ resolved_names M E ∧ (acc.Nodup → U.Nodup) := by
  intro E
  induction E with
  | nil =>
    intro acc U h
    unfold unique_go at h
    cases h
    simp [resolved_names]
  | cons name rest ih =>
    intro acc U h
    unfold unique_go at h
    split at h
    · cases h
    · split at h
      · rename_i hjoin
        obtain ⟨h1, h2⟩ := ih acc U h
        refine ⟨?_, h2⟩
        rw [h1]
        unfold resolved_names
        simp only [List.filterMap_cons, hjoin]
      · rename_i u hjoin
        split at h
        · cases h
        · rename_i hmem
          obtain ⟨h1, h2⟩ := ih (acc ++ [u]) U h
          constructor
          · rw [h1]
            unfold resolved_names
            simp only [List.filterMap_cons, hjoin, List.append_assoc, List.singleton_append]
          · intro hacc
            refine h2 ?_
            rw [List.nodup_append]
            refine ⟨hacc, List.nodup_singleton u, ?_⟩
            intro a ha hb
            simp only [List.mem_singleton] at hb
            subst hb
            have hx : a ∉ acc := by simpa using hmem
            exact hx ha

theorem change_order_ok {M : AxesMapper} {E : List String} {p ins : List Nat}
    (h : M.change_order E = Except.ok (p, ins)) :
    ∃ U, unique_names_pass M E = Except.ok U ∧
      M.on_disk_axes_names.length ≤ U.length ∧
      p = E.filterMap (fun name => (M.index_mapping.lookup name).join) ∧
      ins = change_order_inserts M 0 E := by
  unfold AxesMapper.change_order at h
  cases hu : unique_names_pass M E with
  | error e => rw [hu] at h; cases h
  | ok U =>
    rw [hu] at h
    simp only [except_bind_ok] at h
    split at h
    · cases h
    · rename_i hlen
      refine ⟨U, rfl, ?_, ?_, ?_⟩
      · omega
      · cases h; rfl
      · cases h; rfl

theorem resolved_names_mem {M : AxesMapper} {E : List String} {u : String}
    (h : u ∈ resolved_names M E) :
    ∃ nm ∈ E, (M.name_mapping.lookup nm).join = some u := by
  unfold resolved_names at h
  simpa using List.mem_filterMap.1 h

theorem change_order_inserts_ge (M : AxesMapper) :
    ∀ (E : List String) (k : Nat), ∀ b ∈ change_order_inserts M k E, k ≤ b := by
  intro E
  induction E with
  | nil => intro k b hb; simp [change_order_inserts] at hb
  | cons name rest ih =>
    intro k b hb
    unfold change_order_inserts at hb
    split at hb
    · rcases List.mem_cons.1 hb with h1 | h1
      · omega
      · have := ih (k + 1) b h1; omega
    · have := ih (k + 1) b hb; omega

theorem change_order_inserts_ok (M : AxesMapper) :
    ∀ (E : List String) (k B : Nat),
      k + (E.filterMap (fun name => (M.index_mapping.lookup name).join)).length = B →
      InsPosOK (change_order_inserts M k E) B := by
  intro E
  induction E with
  | nil => intro k B _; simp [change_order_inserts, InsPosOK]
  | cons name rest ih =>
    intro k B hB
    unfold change_order_inserts
    split
    · rename_i hjoin
      have hfc : List.filterMap (fun name => (M.index_mapping.lookup name).join) (name :: rest)
          = List.filterMap (fun name => (M.index_mapping.lookup name).join) rest := by
        simp only [List.filterMap_cons, hjoin]
      rw [hfc] at hB
      simp only [InsPosOK]
      refine ⟨?_, ?_, ?_⟩
      · omega
      · intro b hb
        have := change_order_inserts_ge M rest (k + 1) b hb
        omega
      · exact ih (k + 1) (B + 1) (by omega)
    · rename_i idx hjoin
      have hfc : List.filterMap (fun name => (M.index_mapping.lookup name).join) (name :: rest)
          = idx :: List.filterMap (fun name => (M.index_mapping.lookup name).join) rest := by
        simp only [List.filterMap_cons, hjoin]
      rw [hfc] at hB
      simp only [List.length_cons] at hB
      exact ih (k + 1) B (by omega)

theorem apply_squeeze_go {α : Type u} :
    ∀ (axes : List Nat) (k : Nat) (l : List α),
      (List.enumFrom k axes).foldl (fun acc oa => acc.eraseIdx (oa.2 - oa.1)) l
        = squeeze_go axes k l := by
  intro axes
  induction axes with
  | nil => intro k l; rfl
  | cons a rest ih =>
    intro k l
    rw [List.enumFrom_cons, List.foldl_cons]
    exact ih (k + 1) (l.eraseIdx (a - k))

theorem apply_squeeze_list_eq {α : Type u} (l : List α) (axes : List Nat) :
    apply_squeeze_list l axes = squeeze_go axes 0 l :=
  apply_squeeze_go axes 0 l

theorem squeeze_go_succ {α : Type u} :
    ∀ (axes : List Nat) (k : Nat) (l : List α),
      squeeze_go axes (k + 1) l = squeeze_go (axes.map (fun b => b - 1)) k l := by
  intro axes
  induction axes with
  | nil => intro k l; rfl
  | cons a rest ih =>
    intro k l
    unfold squeeze_go
    rw [List.map_cons]
    show squeeze_go rest (k + 1 + 1) (l.eraseIdx (a - (k + 1)))
      = squeeze_go (rest.map (fun b => b - 1)) (k + 1) (l.eraseIdx (a - 1 - k))
    rw [ih (k + 1)]
    congr 2
    omega

theorem eraseIdx_insertIdx_of_lt {α : Type u} :
    ∀ (m : List α) (a q : Nat) (d : α), a < q → q ≤ m.length →
      (m.insertIdx q d).eraseIdx a = (m.eraseIdx a).insertIdx (q - 1) d := by
  intro m
  induction m with
  | nil =>
    intro a q d haq hq
    exfalso
    simp at hq
    omega
  | cons x m2 ih =>
    intro a q d haq hq
    cases a with
    | zero =>
      obtain ⟨q2, rfl⟩ : ∃ q2, q = q2 + 1 := ⟨q - 1, by omega⟩
      rw [List.insertIdx_succ_cons, List.eraseIdx_cons_zero, List.eraseIdx_cons_zero]
      simp
    | succ a2 =>
      obtain ⟨q2, rfl⟩ : ∃ q2, q = q2 + 1 := ⟨q - 1, by omega⟩
      rw [List.insertIdx_succ_cons, List.eraseIdx_cons_succ, List.eraseIdx_cons_succ]
      rw [ih a2 q2 d (by omega) (by simpa using hq)]
      obtain ⟨q3, rfl⟩ : ∃ q3, q2 = q3 + 1 := ⟨q2 - 1, by omega⟩
      have h1 : q3 + 1 + 1 - 1 = q3 + 1 := by omega
      have h2 : q3 + 1 - 1 = q3 := by omega
      rw [h1, h2, List.insertIdx_succ_cons]

theorem expand_cons {α : Type u} (l : List α) (d : α) (a : Nat) (rest : List Nat) :
    apply_expand_list l d (a :: rest) = apply_expand_list (l.insertIdx a d) d rest := rfl

theorem expand_eraseIdx_commute {α : Type u} :
    ∀ (rest : List Nat) (m : List α) (a : Nat) (d : α),
      a < m.length → (∀ b ∈ rest, a < b) → InsPosOK rest m.length →
      (apply_expand_list m d rest).eraseIdx a
        = apply_expand_list (m.eraseIdx a) d (rest.map (fun b => b - 1)) := by
  intro rest
  induction rest with
  | nil => intro m a d _ _ _; rfl
  | cons q rest2 ih =>
    intro m a d ha hsort hok
    obtain ⟨hq, hsort2, hok2⟩ := hok
    have haq : a < q := hsort q (List.mem_cons_self _ _)
    have hlen : (m.insertIdx q d).length = m.length + 1 := List.length_insertIdx q m hq
    rw [expand_cons]
    rw [ih (m.insertIdx q d) a d (by omega) (fun b hb => hsort b (List.mem_cons_of_mem _ hb))
      (by rw [hlen]; exact hok2)]
    rw [eraseIdx_insertIdx_of_lt m a q d haq hq]
    rw [List.map_cons]
    rfl

theorem insPosOK_map_pred :
    ∀ (ins : List Nat) (n : Nat), InsPosOK ins (n + 1) → (∀ b ∈ ins, 1 ≤ b) →
      InsPosOK (ins.map (fun b => b - 1)) n := by
  intro ins
  induction ins with
  | nil => intro n _ _; simp [InsPosOK]
  | cons a rest ih =>
    intro n hok hge
    obtain ⟨ha, hsort, hrest⟩ := hok
    rw [List.map_cons]
    refine ⟨by omega, ?_, ?_⟩
    · intro b hb
      obtain ⟨b0, hb0, rfl⟩ := List.mem_map.1 hb
      have h1 := hsort b0 hb0
      have h2 := hge a (List.mem_cons_self _ _)
      omega
    · exact ih (n + 1) hrest (fun b hb => hge b (List.mem_cons_of_mem _ hb))

theorem squeeze_expand_cancel {α : Type u} :
    ∀ (n : Nat) (ins : List Nat), ins.length = n →
      ∀ (l : List α) (d : α), InsPosOK ins l.length →
      squeeze_go ins 0 (apply_expand_list l d ins) = l := by
  intro n
  induction n with
  | zero =>
    intro ins hlen l d _
    rw [List.length_eq_zero.1 hlen]
    rfl
  | succ n ih =>
    intro ins hlen l d hok
    cases ins with
    | nil => cases hlen
    | cons a rest =>
      obtain ⟨ha, hsort, hrest⟩ := hok
      have hlen2 : (l.insertIdx a d).length = l.length + 1 := List.length_insertIdx a l ha
      show squeeze_go rest (0 + 1) ((apply_expand_list (l.insertIdx a d) d rest).eraseIdx (a - 0)) = l
      rw [Nat.sub_zero, Nat.zero_add]
      rw [expand_eraseIdx_commute rest (l.insertIdx a d) a d (by omega)
        hsort (by rw [hlen2]; exact hrest)]
      rw [List.eraseIdx_insertIdx]
      rw [squeeze_go_succ]
      refine ih (rest.map (fun b => b - 1)) (by simpa using Nat.succ_injective hlen) l d ?_
      exact insPosOK_map_pred rest l.length hrest
        (fun b hb => by have := hsort b hb; omega)

theorem map_getD_range {α : Type u} (l : List α) (d : α) (n : Nat) (h : l.length = n) :
    (List.range n).map (fun i => l.getD i d) = l := by
  apply List.ext_getElem
  · simp [h]
  · intro i h1 h2
    have hi : i < n := by simpa using h1
    rw [List.getElem_map, List.getElem_range, List.getD_eq_getElem l d (by omega)]

theorem perm_range_of {p : List Nat} {n : Nat} (hlen : p.length = n) (hnd : p.Nodup)
    (hlt : ∀ i ∈ p, i < n) : p.Perm (List.range n) := by
  rw [List.perm_ext_iff_of_nodup hnd (List.nodup_range n)]
  intro a
  constructor
  · intro ha
    exact List.mem_range.2 (hlt a ha)
  · intro ha
    have hsub : p.toFinset ⊆ Finset.range n := by
      intro b hb
      exact Finset.mem_range.2 (hlt b (List.mem_toFinset.1 hb))
    have hcard : (Finset.range n).card ≤ p.toFinset.card := by
      rw [Finset.card_range, List.toFinset_card_of_nodup hnd, hlen]
    have heq := Finset.eq_of_subset_of_card_le hsub hcard
    have : a ∈ p.toFinset := by
      rw [heq]
      exact Finset.mem_range.2 (List.mem_range.1 ha)
    exact List.mem_toFinset.1 this

theorem np_argsort_perm (p : List Nat) : (np_argsort p).Perm (List.range p.length) :=
  List.perm_insertionSort _ _

theorem np_argsort_map_key {p : List Nat} {n : Nat} (hlen : p.length = n)
    (hperm : p.Perm (List.range n)) :
    (np_argsort p).map (fun i => p.getD i 0) = List.range n := by
  have hq : (np_argsort p).Perm (List.range n) := by
    rw [← hlen]; exact np_argsort_perm p
  haveI hTot : IsTotal Nat (fun i j => p.getD i 0 ≤ p.getD j 0) :=
    ⟨fun a b => Nat.le_total _ _⟩
  haveI hTrans : IsTrans Nat (fun i j => p.getD i 0 ≤ p.getD j 0) :=
    ⟨fun a b c hab hbc => Nat.le_trans hab hbc⟩
  have hsorted : List.Sorted (fun i j => p.getD i 0 ≤ p.getD j 0) (np_argsort p) :=
    List.sorted_insertionSort _ _
  have hmap_sorted :
      List.Sorted (fun i j => i ≤ j) ((np_argsort p).map (fun i => p.getD i 0)) :=
    List.Pairwise.map _ (fun a b hab => hab) hsorted
  have hmap_perm : ((np_argsort p).map (fun i => p.getD i 0)).Perm
      ((List.range n).map (fun i => p.getD i 0)) := hq.map _
  rw [map_getD_range p 0 n hlen] at hmap_perm
  have hperm2 : ((np_argsort p).map (fun i => p.getD i 0)).Perm (List.range n) :=
    hmap_perm.trans hperm
  exact List.eq_of_perm_of_sorted hperm2 hmap_sorted (List.sorted_le_range n)

theorem double_transpose {α : Type u} {p q : List Nat} {n : Nat}
    (hp : p.Perm (List.range n)) (hq : q.Perm (List.range n))
    (hkey : q.map (fun i => p.getD i 0) = List.range n)
    (l : List α) (d : α) (hl : l.length = n) :
    q.map (fun i => (p.map (fun i2 => l.getD i2 d)).getD i d) = l := by
  have hqlen : q.length = n := by
    have := hq.length_eq; simpa using this
  have hplen : p.length = n := by
    have := hp.length_eq; simpa using this
  apply List.ext_getElem
  · simp [hqlen, hl]
  · intro j h1 h2
    have hj : j < n := by simpa [hqlen] using h1
    have hqj : q[j] < n := by
      have hmem : q[j] ∈ q := List.getElem_mem _
      have := hq.mem_iff.1 hmem
      simpa using List.mem_range.1 this
    rw [List.getElem_map]
    have hkeyj : p.getD q[j] 0 = j := by
      have := congrArg (fun l2 => l2.getD j 0) hkey
      simp only at this
      rw [List.getD_eq_getElem _ _ (by simpa [hqlen] using hj),
        List.getD_eq_getElem _ _ (by simpa using hj), List.getElem_map,
        List.getElem_range] at this
      exact this
    have hmaplen : (p.map (fun i2 => l.getD i2 d)).length = n := by simp [hplen]
    rw [List.getD_eq_getElem _ _ (by omega), List.getElem_map]
    have hpqj : p[q[j]] = j := by
      rw [List.getD_eq_getElem p 0 (by omega)] at hkeyj
      exact hkeyj
    rw [hpqj, List.getD_eq_getElem l d (by omega)]

theorem argsort_indexOf {p q : List Nat} {n : Nat}
    (hp : p.Perm (List.range n)) (hq : q.Perm (List.range n))
    (hkey : q.map (fun i => p.getD i 0) = List.range n)
    {i : Nat} (hi : i < n) : q.indexOf (p.indexOf i) = i := by
  have hplen : p.length = n := by have := hp.length_eq; simpa using this
  have hqlen : q.length = n := by have := hq.length_eq; simpa using this
  have hmemp : i ∈ p := hp.mem_iff.2 (List.mem_range.2 hi)
  have hidx : p.indexOf i < p.length := List.indexOf_lt_length.2 hmemp
  have hmemq : p.indexOf i ∈ q := by
    refine hq.mem_iff.2 (List.mem_range.2 ?_)
    omega
  have hjdx : q.indexOf (p.indexOf i) < q.length := List.indexOf_lt_length.2 hmemq
  have hqval : q[q.indexOf (p.indexOf i)] = p.indexOf i := List.getElem_indexOf hjdx
  have hkeyj : p.getD q[q.indexOf (p.indexOf i)] 0 = q.indexOf (p.indexOf i) := by
    have := congrArg (fun l2 => l2.getD (q.indexOf (p.indexOf i)) 0) hkey
    simp only at this
    rw [List.getD_eq_getElem _ _ (by simpa using hjdx),
      List.getD_eq_getElem _ _ (by simpa [hqlen] using hjdx), List.getElem_map,
      List.getElem_range] at this
    exact this
  rw [hqval, List.getD_eq_getElem p 0 hidx, List.getElem_indexOf hidx] at hkeyj
  omega

theorem option_join_eq_some {α : Type u} {ov : Option (Option α)} {u : α}
    (h : ov.join = some u) : ov = some (some u) := by
  cases ov with
  | none => cases h
  | some o =>
    cases o with
    | none => cases h
    | some v => simp at h; rw [h]

theorem change_order_plan_facts {axes : List Axis} {setup : AxesSetup} {a s : Bool}
    {E : List String} {p ins : List Nat}
    (h : (build_mapper axes setup a s).change_order E = Except.ok (p, ins)) :
    p.Perm (List.range axes.length) ∧ InsPosOK ins axes.length := by
  obtain ⟨U, hU, hcov, hp, hins⟩ := change_order_ok h
  obtain ⟨hUeq, hUnodup2⟩ :=
    unique_go_ok (build_mapper axes setup a s) E [] U hU
  have hUnodup : U.Nodup := hUnodup2 List.nodup_nil
  rw [List.nil_append] at hUeq
  have hUmem : ∀ u ∈ U, u ∈ on_disk_names_of axes := by
    intro u hu
    rw [hUeq] at hu
    obtain ⟨nm, _, hnm⟩ := resolved_names_mem hu
    exact mapper_name_lookup_mem (option_join_eq_some hnm)
  have hnames_len : (on_disk_names_of axes).length = axes.length := by
    simp [on_disk_names_of]
  have hM_names_len :
      (build_mapper axes setup a s).on_disk_axes_names.length = axes.length := by
    unfold AxesMapper.on_disk_axes_names
    rw [build_mapper_names]
    exact hnames_len
  have hcov2 : axes.length ≤ U.length := by omega
  have hUle : U.length ≤ (on_disk_names_of axes).length := by
    calc U.length = U.toFinset.card := (List.toFinset_card_of_nodup hUnodup).symm
    _ ≤ (on_disk_names_of axes).toFinset.card :=
        Finset.card_le_card
          (fun x hx => List.mem_toFinset.2 (hUmem x (List.mem_toFinset.1 hx)))
    _ ≤ (on_disk_names_of axes).length := List.toFinset_card_le _
  have hUlen : U.length = axes.length := by omega
  have hp2 : p = U.map (fun u => (on_disk_names_of axes).indexOf u) := by
    rw [hp]
    have hcongr :
        E.filterMap (fun nm => ((build_mapper axes setup a s).index_mapping.lookup nm).join)
          = E.filterMap (fun nm =>
              (((build_mapper axes setup a s).name_mapping.lookup nm).join).map
                (fun v => (on_disk_names_of axes).indexOf v)) :=
      List.filterMap_congr (fun nm _ => mapper_index_join axes setup a s nm)
    rw [hcongr, ← List.map_filterMap]
    rw [hUeq]
    rfl
  have hpNodup : p.Nodup := by
    rw [hp2]
    refine List.Nodup.map_on ?_ hUnodup
    intro u1 h1 u2 h2 he
    have m1 : u1 ∈ on_disk_names_of axes := hUmem u1 h1
    have m2 : u2 ∈ on_disk_names_of axes := hUmem u2 h2
    have hb1 : (on_disk_names_of axes).indexOf u1 < (on_disk_names_of axes).length :=
      List.indexOf_lt_length.2 m1
    have hb2 : (on_disk_names_of axes).indexOf u2 < (on_disk_names_of axes).length :=
      List.indexOf_lt_length.2 m2
    have e1 := List.getElem_indexOf hb1
    have e2 := List.getElem_indexOf hb2
    rw [← e1, ← e2]
    simp only [he]
  have hplt : ∀ i ∈ p, i < axes.length := by
    intro i hi
    rw [hp2] at hi
    obtain ⟨u, hu, rfl⟩ := List.mem_map.1 hi
    have := List.indexOf_lt_length.2 (hUmem u hu)
    omega
  have hplen : p.length = axes.length := by
    rw [hp2, List.length_map, hUlen]
  refine ⟨perm_range_of hplen hpNodup hplt, ?_⟩
  have hins2 := change_order_inserts_ok (build_mapper axes setup a s) E 0 axes.length
    (by rw [← hp]; omega)
  rw [hins]
  exact hins2

theorem roundtrip_list_core {α : Type u} {p ins : List Nat} {n : Nat}
    (hp : p.Perm (List.range n)) (hins : InsPosOK ins n)
    (l : List α) (d : α) (hl : l.length = n) :
    transform_list
      (transform_list l d [AxesTransformation.transpose p, AxesTransformation.expand ins]) d
      [AxesTransformation.squeeze ins, AxesTransformation.transpose (np_argsort p)] = l := by
  have hplen : p.length = n := by have := hp.length_eq; simpa using this
  have hq : (np_argsort p).Perm (List.range n) := by
    rw [← hplen]; exact np_argsort_perm p
  have hkey := np_argsort_map_key hplen hp
  have hl1len : (p.map (fun i => l.getD i d)).length = n := by simp [hplen]
  have hcancel : apply_squeeze_list
      (apply_expand_list (p.map (fun i => l.getD i d)) d ins) ins
        = p.map (fun i => l.getD i d) := by
    rw [apply_squeeze_list_eq]
    exact squeeze_expand_cancel ins.length ins rfl _ d (by rw [hl1len]; exact hins)
  show (np_argsort p).map
      (fun i => (apply_squeeze_list
        (apply_expand_list (p.map (fun i2 => l.getD i2 d)) d ins) ins).getD i d) = l
  rw [hcancel]
  exact double_transpose hp hq hkey l d hl

theorem roundtrip_array_core {α : Type u} {p ins : List Nat} {n : Nat}
    (hp : p.Perm (List.range n)) (hins : InsPosOK ins n)
    (arr : NpArray α) (hsh : arr.shape.length = n) :
    (transform_array
      (transform_array arr [AxesTransformation.transpose p, AxesTransformation.expand ins])
      [AxesTransformation.squeeze ins, AxesTransformation.transpose (np_argsort p)]).shape
        = arr.shape
    ∧ ∀ idx : List Nat, idx.length = n →
      (transform_array
        (transform_array arr [AxesTransformation.transpose p, AxesTransformation.expand ins])
        [AxesTransformation.squeeze ins, AxesTransformation.transpose (np_argsort p)]).data idx
          = arr.data idx := by
  have hplen : p.length = n := by have := hp.length_eq; simpa using this
  have hq : (np_argsort p).Perm (List.range n) := by
    rw [← hplen]; exact np_argsort_perm p
  have hkey := np_argsort_map_key hplen hp
  have hs1len : (p.map (fun i => arr.shape.getD i 0)).length = n := by simp [hplen]
  have hshape_cancel : apply_squeeze_list
      (apply_expand_list (p.map (fun i => arr.shape.getD i 0)) 1 ins) ins
        = p.map (fun i => arr.shape.getD i 0) := by
    rw [apply_squeeze_list_eq]
    exact squeeze_expand_cancel ins.length ins rfl _ 1 (by rw [hs1len]; exact hins)
  constructor
  · show (np_argsort p).map
        (fun i => (apply_squeeze_list
          (apply_expand_list (p.map (fun i2 => arr.shape.getD i2 0)) 1 ins) ins).getD i 0)
          = arr.shape
    rw [hshape_cancel]
    exact double_transpose hp hq hkey arr.shape 0 hsh
  · intro idx hidx
    show (np_squeeze
        (np_expand_dims (np_transpose arr p) ins) ins).data
        ((List.range (np_squeeze (np_expand_dims (np_transpose arr p) ins) ins).shape.length).map
          (fun dd => idx.getD ((np_argsort p).indexOf dd) 0)) = arr.data idx
    have hA3shape : (np_squeeze (np_expand_dims (np_transpose arr p) ins) ins).shape
        = p.map (fun i => arr.shape.getD i 0) := hshape_cancel
    rw [hA3shape]
    have hmidlen : ((p.map (fun i => arr.shape.getD i 0)).length) = n := hs1len
    rw [hmidlen]
    have hmidlen2 : ((List.range n).map
        (fun dd => idx.getD ((np_argsort p).indexOf dd) 0)).length = n := by simp
    have hdata_cancel : apply_squeeze_list
        (apply_expand_list ((List.range n).map
          (fun dd => idx.getD ((np_argsort p).indexOf dd) 0)) 0 ins) ins
        = (List.range n).map (fun dd => idx.getD ((np_argsort p).indexOf dd) 0) := by
      rw [apply_squeeze_list_eq]
      exact squeeze_expand_cancel ins.length ins rfl _ 0 (by rw [hmidlen2]; exact hins)
    show (np_transpose arr p).data
        (apply_squeeze_list (apply_expand_list ((List.range n).map
          (fun dd => idx.getD ((np_argsort p).indexOf dd) 0)) 0 ins) ins) = arr.data idx
    rw [hdata_cancel]
    show arr.data ((List.range arr.shape.length).map
        (fun dd => ((List.range n).map
          (fun dd2 => idx.getD ((np_argsort p).indexOf dd2) 0)).getD (p.indexOf dd) 0))
      = arr.data idx
    congr 1
    rw [hsh]
    apply List.ext_getElem
    · simp [hidx]
    · intro j h1 h2
      have hj : j < n := by simpa using h1
      rw [List.getElem_map, List.getElem_range]
      have hjp : j ∈ p := hp.mem_iff.2 (List.mem_range.2 hj)
      have hjidx : p.indexOf j < p.length := List.indexOf_lt_length.2 hjp
      rw [List.getD_eq_getElem _ _ (by simp; omega), List.getElem_map, List.getElem_range]
      rw [argsort_indexOf hp hq hkey hj]
      rw [List.getD_eq_getElem idx 0 (by omega)]

theorem to_canonical_ok {M : AxesMapper} {ops1 : List AxesTransformation}
    (h : M.to_canonical = Except.ok ops1) :
    ∃ p ins, M.change_order M.extended_canonical_order = Except.ok (p, ins)
      ∧ ops1 = [AxesTransformation.transpose p, AxesTransformation.expand ins] := by
  unfold AxesMapper.to_canonical AxesMapper.to_order at h
  cases hc : M.change_order M.extended_canonical_order with
  | error e => rw [hc] at h; cases h
  | ok pr =>
    obtain ⟨p0, ins0⟩ := pr
    rw [hc] at h
    simp only [except_bind_ok] at h
    cases h
    exact ⟨p0, ins0, rfl, rfl⟩

theorem from_canonical_ok {M : AxesMapper} {ops2 : List AxesTransformation}
    (h : M.from_canonical = Except.ok ops2) :
    ∃ p ins, M.change_order M.extended_canonical_order = Except.ok (p, ins)
      ∧ ops2 = [AxesTransformation.squeeze ins, AxesTransformation.transpose (np_argsort p)] := by
  unfold AxesMapper.from_canonical AxesMapper.from_order at h
  cases hc : M.change_order M.extended_canonical_order with
  | error e => rw [hc] at h; cases h
  | ok pr =>
    obtain ⟨p0, ins0⟩ := pr
    rw [hc] at h
    simp only [except_bind_ok] at h
    cases h
    exact ⟨p0, ins0, rfl, rfl⟩

/-- C1: for every on-disk axis list and `AxesSetup` whose `AxesMapper`
construction succeeds and whose canonical plans are produced, applying the
`to_canonical()` plan and then the `from_canonical()` plan returns every
parallel per-axis metadata list of matching length unchanged, and returns
every N-dimensional array of matching rank unchanged (same shape, and the same
value at every index of matching rank). -/
theorem claim_canonical_roundtrip (axes : List Axis) (setup : AxesSetup) (a s : Bool)
    (M : AxesMapper) (ops1 ops2 : List AxesTransformation)
    (hM : AxesMapper.init axes setup a s = Except.ok M)
    (h1 : M.to_canonical = Except.ok ops1)
    (h2 : M.from_canonical = Except.ok ops2) :
    (∀ (α : Type) (l : List α) (d : α), l.length = axes.length →
        transform_list (transform_list l d ops1) d ops2 = l)
    ∧ (∀ (α : Type) (arr : NpArray α), arr.shape.length = axes.length →
        (transform_array (transform_array arr ops1) ops2).shape = arr.shape
        ∧ ∀ idx : List Nat, idx.length = axes.length →
          (transform_array (transform_array arr ops1) ops2).data idx = arr.data idx) := by
  obtain ⟨hval, hMeq⟩ := (init_ok_iff axes setup a s M).1 hM
  subst hMeq
  obtain ⟨p, ins, hco1, hops1⟩ := to_canonical_ok h1
  obtain ⟨p2, ins2, hco2, hops2⟩ := from_canonical_ok h2
  rw [hco1] at hco2
  injection hco2 with hco3
  injection hco3 with hpa hpb
  subst hpa hpb
  subst hops1
  subst hops2
  obtain ⟨hperm, hins⟩ := change_order_plan_facts hco1
  constructor
  · intro α l d hl
    exact roundtrip_list_core hperm hins l d hl
  · intro α arr hsh
    exact roundtrip_array_core hperm hins arr hsh

/-- Witness for C1: axes `z, y, x` under the default setup; the canonical
round trip on the metadata list `[10, 20, 30]`. -/
theorem claim_canonical_roundtrip_witness :
    transform_list (transform_list [10, 20, 30] 0
        [AxesTransformation.transpose [0, 1, 2], AxesTransformation.expand [0, 1]]) 0
      [AxesTransformation.squeeze [0, 1], AxesTransformation.transpose [0, 1, 2]]
      = [10, 20, 30] :=
  (claim_canonical_roundtrip
    [⟨"z", none, none⟩, ⟨"y", none, none⟩, ⟨"x", none, none⟩] default_axes_setup false false
    _ _ _ rfl rfl rfl).1 Nat [10, 20, 30] 0 rfl

/-- C10: `AxesMapper` construction preserves the on-disk axis list's length,
order and `on_disk_name` values: the names after construction equal the names
of the input axes, in the same order. -/
theorem claim_mapper_preserves_axis_names (axes : List Axis) (setup : AxesSetup)
    (a s : Bool) (M : AxesMapper)
    (hM : AxesMapper.init axes setup a s = Except.ok M) :
    on_disk_names_of M.on_disk_axes = on_disk_names_of axes
      ∧ M.on_disk_axes.length = axes.length := by
  obtain ⟨hval, hMeq⟩ := (init_ok_iff axes setup a s M).1 hM
  subst hMeq
  exact ⟨build_mapper_names axes setup a s, build_mapper_length axes setup a s⟩

/-- Witness for C10: the axes `t, x` (type coercion rewrites both axes but
keeps both names and the order). -/
theorem claim_mapper_preserves_axis_names_witness :
    on_disk_names_of
        (build_mapper [⟨"t", none, none⟩, ⟨"x", none, none⟩] default_axes_setup false false).on_disk_axes
      = ["t", "x"] :=
  ((claim_mapper_preserves_axis_names
    [⟨"t", none, none⟩, ⟨"x", none, none⟩] default_axes_setup false false
    _ rfl).1).trans rfl

theorem mapper_index_range {axes : List Axis} {setup : AxesSetup} {a s : Bool}
    {k : String} {i : Nat}
    (h : (build_mapper axes setup a s).index_mapping.lookup k = some (some i)) :
    i < axes.length := by
  rw [build_mapper_index_mapping, compute_index_mapping_lookup] at h
  cases hl : (compute_name_mapping axes setup).lookup k with
  | none => rw [hl] at h; cases h
  | some o =>
    cases o with
    | none =>
      rw [hl] at h
      exact Option.noConfusion (Option.some.inj h)
    | some v =>
      rw [hl] at h
      have hv : v ∈ on_disk_names_of axes :=
        compute_name_mapping_some_mem (lookup_mem hl)
      have hlt := List.indexOf_lt_length.2 hv
      have hnl : (on_disk_names_of axes).length = axes.length := by
        simp [on_disk_names_of]
      have : (on_disk_names_of axes).indexOf v = i := by
        injection h with h2
        injection h2
      omega

/-- C7: for a successfully constructed mapper, `get_index` fails with an
invalid-name `NgioValueError` exactly on unrecognized keys and returns the
stored (possibly absent) index on recognized ones, and for every present axis
name the axis at position `get_index(name)` of the on-disk axis list carries
the same `on_disk_name` as the axis returned by `get_axis(name)`. -/
theorem claim_get_index_get_axis (axes : List Axis) (setup : AxesSetup) (a s : Bool)
    (M : AxesMapper) (hM : AxesMapper.init axes setup a s = Except.ok M) :
    (∀ name, M.index_mapping.lookup name = none →
        M.get_index name = Except.error (NgioError.value s!"Invalid axis name {name}"))
    ∧ (∀ name, M.index_mapping.lookup name = some none →
        M.get_index name = Except.ok none ∧ M.get_axis name = Except.ok none)
    ∧ (∀ name i, M.get_index name = Except.ok (some i) →
        ∃ ax, M.get_axis name = Except.ok (some ax)
          ∧ i < M.on_disk_axes.length
          ∧ (M.on_disk_axes.getD i default_axis).on_disk_name = ax.on_disk_name) := by
  obtain ⟨hval, hMeq⟩ := (init_ok_iff axes setup a s M).1 hM
  refine ⟨?_, ?_, ?_⟩
  · intro name hnone
    unfold AxesMapper.get_index
    rw [hnone]
  · intro name habs
    constructor
    · unfold AxesMapper.get_index
      rw [habs]
    · unfold AxesMapper.get_axis AxesMapper.get_index
      rw [habs]
  · intro name i hi
    have hlook : M.index_mapping.lookup name = some (some i) := by
      unfold AxesMapper.get_index at hi
      cases hl : M.index_mapping.lookup name with
      | none => rw [hl] at hi; cases hi
      | some v => rw [hl] at hi; injection hi with h2; rw [h2]
    refine ⟨M.on_disk_axes.getD i default_axis, ?_, ?_, rfl⟩
    · unfold AxesMapper.get_axis
      rw [hi]
    · have := mapper_index_range (hMeq ▸ hlook)
      have hlen : M.on_disk_axes.length = axes.length := by
        rw [hMeq]; exact build_mapper_length axes setup a s
      omega

/-- Witness for C7: the default mapper over `z, y, x`; the present key `x` has
index 2, the recognized-but-absent key `t` yields the absent value, and the
unrecognized key `q` fails. -/
theorem claim_get_index_get_axis_witness :
    (build_mapper [⟨"z", none, none⟩, ⟨"y", none, none⟩, ⟨"x", none, none⟩]
        default_axes_setup false false).get_index "q"
      = Except.error (NgioError.value "Invalid axis name q") :=
  (claim_get_index_get_axis
    [⟨"z", none, none⟩, ⟨"y", none, none⟩, ⟨"x", none, none⟩]
    default_axes_setup false false _ rfl).1 "q" rfl

/-- C5: `AxesMapper` construction fails with a validation error exactly when
one of the five listed conditions holds: duplicate on-disk names; non-empty
`others` while non-canonical axes are disallowed; an on-disk name reachable
neither from the canonical mapping nor from `others`; `strict_order` with the
on-disk sequence differing from the canonical order filtered to present axes;
or both `allow_non_canonical_axes` and `strict_order` set.  (`AxesMapper.init`
fails exactly when `validate_axes` does, which raises only
`NgioValidationError`.) -/
theorem claim_validate_axes_error_iff (axes : List Axis) (setup : AxesSetup) (a s : Bool) :
    (∃ msg, validate_axes axes setup a s = Except.error (NgioError.validation msg)) ↔
      (¬ (on_disk_names_of axes).Nodup
        ∨ (setup.others ≠ [] ∧ a = false)
        ∨ (∃ ax ∈ axes, ax.on_disk_name ∉
            ([setup.x, setup.y, setup.z, setup.c, setup.t] ++ setup.others))
        ∨ (s = true ∧ on_disk_names_of axes ≠ canonical_order_filtered axes setup)
        ∨ (a = true ∧ s = true)) := by
  have hknown : ∀ ax : Axis,
      ((all_known_axes setup).contains ax.on_disk_name = true)
        ↔ ax.on_disk_name ∈ ([setup.x, setup.y, setup.z, setup.c, setup.t] ++ setup.others) := by
    intro ax
    simp [all_known_axes, AxesSetup.dump_pairs]
  by_cases hc5 : a = true ∧ s = true
  · obtain ⟨ha, hs⟩ := hc5
    subst ha hs
    constructor
    · intro _
      right; right; right; right
      exact ⟨rfl, rfl⟩
    · intro _
      exact ⟨_, rfl⟩
  · by_cases hnd : (on_disk_names_of axes).Nodup
    · by_cases h2 : (¬ (a = true)) ∧ setup.others.length > 0
      · constructor
        · intro _
          right; left
          refine ⟨?_, ?_⟩
          · intro hnil
            rw [hnil] at h2
            simp at h2
          · cases a
            · rfl
            · exact absurd rfl h2.1
        · intro _
          refine ⟨"Unknown axes. Please set allow_non_canonical_axes=True to ignore them", ?_⟩
          unfold validate_axes
          rw [if_neg hc5]
          show (check_unique_names axes >>= fun _ => _) = _
          unfold check_unique_names
          rw [if_pos hnd, except_bind_ok]
          show (check_non_canonical_axes setup a >>= fun _ => _) = _
          unfold check_non_canonical_axes
          rw [if_pos h2, except_bind_error]
      · by_cases h3 : ∃ ax ∈ axes,
            ax.on_disk_name ∉ ([setup.x, setup.y, setup.z, setup.c, setup.t] ++ setup.others)
        · have hfind : ∃ ax0, axes.find?
              (fun ax => ¬ (all_known_axes setup).contains ax.on_disk_name) = some ax0 := by
            obtain ⟨ax, hax, hmem⟩ := h3
            have hform : (axes.find?
                (fun ax => ¬ (all_known_axes setup).contains ax.on_disk_name)).isSome
                  = true := by
              rw [List.find?_isSome]
              refine ⟨ax, hax, ?_⟩
              have hc : (all_known_axes setup).contains ax.on_disk_name = false := by
                cases hb : (all_known_axes setup).contains ax.on_disk_name with
                | false => rfl
                | true => exact absurd ((hknown ax).1 hb) hmem
              simp only [decide_eq_true_eq]
              rw [hc]
              simp
            exact Option.isSome_iff_exists.1 hform
          obtain ⟨ax0, hax0⟩ := hfind
          constructor
          · intro _
            right; right; left
            exact h3
          · intro _
            refine ⟨s!"Invalid axis name {ax0.on_disk_name}", ?_⟩
            unfold validate_axes
            rw [if_neg hc5]
            show (check_unique_names axes >>= fun _ => _) = _
            unfold check_unique_names
            rw [if_pos hnd, except_bind_ok]
            show (check_non_canonical_axes setup a >>= fun _ => _) = _
            unfold check_non_canonical_axes
            rw [if_neg h2, except_bind_ok]
            show (check_axes_validity axes setup >>= fun _ => _) = _
            unfold check_axes_validity
            rw [hax0, except_bind_error]
        · have hfind : axes.find?
              (fun ax => ¬ (all_known_axes setup).contains ax.on_disk_name) = none := by
            rw [List.find?_eq_none]
            intro ax hax
            push_neg at h3
            have hmem := h3 ax hax
            have hc : (all_known_axes setup).contains ax.on_disk_name = true :=
              (hknown ax).2 hmem
            simp only [decide_eq_true_eq]
            rw [hc]
            simp
          by_cases h4 : s = true ∧ on_disk_names_of axes ≠ canonical_order_filtered axes setup
          · constructor
            · intro _
              right; right; right; left
              exact h4
            · intro _
              refine ⟨"Invalid axes order. The axes must be in the canonical order.", ?_⟩
              unfold validate_axes
              rw [if_neg hc5]
              show (check_unique_names axes >>= fun _ => _) = _
              unfold check_unique_names
              rw [if_pos hnd, except_bind_ok]
              show (check_non_canonical_axes setup a >>= fun _ => _) = _
              unfold check_non_canonical_axes
              rw [if_neg h2, except_bind_ok]
              show (check_axes_validity axes setup >>= fun _ => _) = _
              unfold check_axes_validity
              rw [hfind, except_bind_ok]
              unfold check_canonical_order
              rw [if_neg (by simp [h4.1]), if_neg h4.2]
          · have hok : validate_axes axes setup a s = Except.ok () := by
              unfold validate_axes
              rw [if_neg hc5]
              show (check_unique_names axes >>= fun _ => _) = _
              unfold check_unique_names
              rw [if_pos hnd, except_bind_ok]
              show (check_non_canonical_axes setup a >>= fun _ => _) = _
              unfold check_non_canonical_axes
              rw [if_neg h2, except_bind_ok]
              show (check_axes_validity axes setup >>= fun _ => _) = _
              unfold check_axes_validity
              rw [hfind, except_bind_ok]
              unfold check_canonical_order
              by_cases hs : s = true
              · have hord : on_disk_names_of axes = canonical_order_filtered axes setup := by
                  by_contra hne
                  exact h4 ⟨hs, hne⟩
                rw [if_neg (by simp [hs]), if_pos hord]
              · rw [if_pos (by simpa using hs)]
            constructor
            · intro hmsg
              obtain ⟨msg, hmsg⟩ := hmsg
              rw [hok] at hmsg
              cases hmsg
            · intro hdisj
              exfalso
              rcases hdisj with h | h | h | h | h
              · exact h hnd
              · exact h2 ⟨by rw [h.2]; simp, List.length_pos.2 h.1⟩
              · exact h3 h
              · exact h4 h
              · exact hc5 h
    · constructor
      · intro _
        left
        exact hnd
      · intro _
        refine ⟨"All axes must be unique. But found duplicates axes", ?_⟩
        unfold validate_axes
        rw [if_neg hc5]
        show (check_unique_names axes >>= fun _ => _) = _
        unfold check_unique_names
        rw [if_neg hnd, except_bind_error]

theorem find?_unique {α : Type u} {p : α → Bool} {l : List α} {x : α}
    (hx : x ∈ l) (hpx : p x = true) (huniq : ∀ y ∈ l, p y = true → y = x) :
    l.find? p = some x := by
  induction l with
  | nil => cases hx
  | cons a rest ih =>
    by_cases hpa : p a = true
    · rw [List.find?_cons_of_pos _ hpa]
      rw [huniq a (List.mem_cons_self _ _) hpa]
    · rw [List.find?_cons_of_neg _ hpa]
      rcases List.mem_cons.1 hx with rfl | hx2
      · exact absurd hpx hpa
      · exact ih hx2 (fun y hy => huniq y (List.mem_cons_of_mem _ hy))

theorem validate_ok_nodup {axes : List Axis} {setup : AxesSetup} {a s : Bool}
    (h : validate_axes axes setup a s = Except.ok ()) :
    (on_disk_names_of axes).Nodup := by
  by_contra hnd
  unfold validate_axes at h
  split at h
  · exact Except.noConfusion h
  · unfold check_unique_names at h
    rw [if_neg hnd] at h
    exact Except.noConfusion h

theorem axes_getD_inj {axes : List Axis} (hnd : (on_disk_names_of axes).Nodup)
    {i j : Nat} (hi : i < axes.length) (hj : j < axes.length)
    (he : axes.getD i default_axis = axes.getD j default_axis) : i = j := by
  have hni : (on_disk_names_of axes).length = axes.length := by simp [on_disk_names_of]
  have h1 : (on_disk_names_of axes).getD i "" = (on_disk_names_of axes).getD j "" := by
    unfold on_disk_names_of
    rw [List.getD_eq_getElem _ _ (by simpa using hi),
      List.getD_eq_getElem _ _ (by simpa using hj), List.getElem_map, List.getElem_map]
    rw [List.getD_eq_getElem _ _ hi, List.getD_eq_getElem _ _ hj] at he
    rw [he]
  rw [List.getD_eq_getElem _ _ (by omega), List.getD_eq_getElem _ _ (by omega)] at h1
  exact (List.Nodup.getElem_inj_iff hnd).1 h1

theorem validate_axex_type_fields (m : AxesMapper) :
    m.validate_axex_type.index_mapping = m.index_mapping
      ∧ m.validate_axex_type.name_mapping = m.name_mapping := ⟨rfl, rfl⟩

theorem validate_axex_type_getD (m : AxesMapper) (i : Nat)
    (hi : i < m.on_disk_axes.length) (k : String)
    (hfind : canonical_axes_order.find?
        (fun name =>
          decide (m.get_axis name = Except.ok (some (m.on_disk_axes.getD i default_axis))))
      = some k) :
    m.validate_axex_type.on_disk_axes.getD i default_axis
      = (m.on_disk_axes.getD i default_axis).canonical_axis_cast k := by
  unfold AxesMapper.validate_axex_type
  simp only
  rw [List.getD_eq_getElem _ _ (by simpa using hi), List.getElem_map]
  rw [List.getD_eq_getElem _ _ hi] at hfind ⊢
  rw [hfind]

theorem build_mapper_slot_cast (axes : List Axis) (setup : AxesSetup) (a s : Bool)
    (hval : validate_axes axes setup a s = Except.ok ())
    (hinj : ∀ k1 k2 : String, ∀ i : Nat, k1 ∈ canonical_axes_order →
      k2 ∈ canonical_axes_order →
      (build_mapper axes setup a s).index_mapping.lookup k1 = some (some i) →
      (build_mapper axes setup a s).index_mapping.lookup k2 = some (some i) → k1 = k2)
    (k : String) (i : Nat) (hk : k ∈ canonical_axes_order)
    (hik : (build_mapper axes setup a s).index_mapping.lookup k = some (some i)) :
    i < axes.length
    ∧ (build_mapper axes setup a s).on_disk_axes.getD i default_axis
        = (axes.getD i default_axis).canonical_axis_cast k := by
  have hi : i < axes.length := mapper_index_range hik
  have hnd : (on_disk_names_of axes).Nodup := validate_ok_nodup hval
  refine ⟨hi, ?_⟩
  -- the pre-coercion mapper record
  set m0 : AxesMapper :=
    { allow_non_canonical_axes := a
      strict_canonical_order := s
      extended_canonical_order := setup.others ++ canonical_axes_order
      on_disk_axes := axes
      axes_setup := setup
      name_mapping := compute_name_mapping axes setup
      index_mapping := compute_index_mapping (compute_name_mapping axes setup)
        (on_disk_names_of axes) } with hm0
  have hbuild : build_mapper axes setup a s = m0.validate_axex_type := rfl
  have hm0idx : m0.index_mapping.lookup k = some (some i) := hik
  have hm0len : m0.on_disk_axes.length = axes.length := rfl
  -- the canonical-slot search finds exactly k for the axis at position i
  have hfind : canonical_axes_order.find?
      (fun name =>
        decide (m0.get_axis name = Except.ok (some (m0.on_disk_axes.getD i default_axis))))
      = some k := by
    apply find?_unique hk
    · simp only [decide_eq_true_eq]
      unfold AxesMapper.get_axis AxesMapper.get_index
      rw [hm0idx]
    · intro k2 hk2 hp2
      simp only [decide_eq_true_eq] at hp2
      unfold AxesMapper.get_axis AxesMapper.get_index at hp2
      cases hl2 : m0.index_mapping.lookup k2 with
      | none => rw [hl2] at hp2; cases hp2
      | some ov =>
        cases ov with
        | none => rw [hl2] at hp2; cases hp2
        | some j =>
          rw [hl2] at hp2
          injection hp2 with hp3
          injection hp3 with hp4
          have hj : j < axes.length := @mapper_index_range axes setup a s k2 j hl2
          have hji : j = i := axes_getD_inj hnd hj hi hp4
          subst hji
          exact hinj k2 k j hk2 hk hl2 hik
  rw [hbuild]
  exact validate_axex_type_getD m0 i (by omega) k hfind

theorem check_axes_validity_names (axes : List Axis) (setup : AxesSetup) :
    check_axes_validity axes setup
      = match (on_disk_names_of axes).find?
          (fun nm => ¬ (all_known_axes setup).contains nm) with
        | some nm => Except.error (NgioError.validation s!"Invalid axis name {nm}")
        | none => Except.ok () := by
  unfold check_axes_validity on_disk_names_of
  rw [List.find?_map]
  cases hf : axes.find? ((fun nm => ¬ (all_known_axes setup).contains nm) ∘
      (fun ax => ax.on_disk_name)) with
  | none =>
    have : axes.find? (fun ax => ¬ (all_known_axes setup).contains ax.on_disk_name)
        = none := hf
    rw [this]
    rfl
  | some ax =>
    have : axes.find? (fun ax => ¬ (all_known_axes setup).contains ax.on_disk_name)
        = some ax := hf
    rw [this]
    rfl

theorem validate_axes_names_only (axes1 axes2 : List Axis) (setup : AxesSetup) (a s : Bool)
    (h : on_disk_names_of axes1 = on_disk_names_of axes2) :
    validate_axes axes1 setup a s = validate_axes axes2 setup a s := by
  have e1 : check_unique_names axes1 = check_unique_names axes2 := by
    unfold check_unique_names
    rw [h]
  have e2 : check_axes_validity axes1 setup = check_axes_validity axes2 setup := by
    rw [check_axes_validity_names, check_axes_validity_names, h]
  have e3 : check_canonical_order axes1 setup s = check_canonical_order axes2 setup s := by
    unfold check_canonical_order canonical_order_filtered
    rw [h]
  unfold validate_axes
  rw [e1, e2, e3]

/-- C6 counterexample: with `AxesSetup(z="p", c="p")` the single on-disk axis
`p` occupies both the `c` and the `z` canonical slot; construction succeeds
and coerces it for the first slot in canonical order (`c`: channel, unit
stripped), so the axis occupying the `z` slot with a non-space unit is NOT
rewritten to the space type and default space unit the claim requires. -/
theorem claim_canonical_type_coercion_counterexample :
    AxesMapper.init [⟨"p", none, none⟩] ⟨"x", "y", "p", "p", "t", []⟩ false false
        = Except.ok (build_mapper [⟨"p", none, none⟩] ⟨"x", "y", "p", "p", "t", []⟩ false false)
    ∧ (build_mapper [⟨"p", none, none⟩]
        ⟨"x", "y", "p", "p", "t", []⟩ false false).index_mapping.lookup "z"
        = some (some 0)
    ∧ (build_mapper [⟨"p", none, none⟩]
        ⟨"x", "y", "p", "p", "t", []⟩ false false).on_disk_axes.getD 0 default_axis
        = ⟨"p", none, some AxisType.channel⟩
    ∧ ((build_mapper [⟨"p", none, none⟩]
        ⟨"x", "y", "p", "p", "t", []⟩ false false).on_disk_axes.getD 0 default_axis).axis_type
        ≠ some AxisType.space
    ∧ ((build_mapper [⟨"p", none, none⟩]
        ⟨"x", "y", "p", "p", "t", []⟩ false false).on_disk_axes.getD 0 default_axis).unit
        ≠ some (AxisUnit.space SpaceUnits.um) := by
  refine ⟨rfl, rfl, rfl, ?_, ?_⟩
  · decide
  · decide

/-- C6 (amended): when the canonical slots resolve to pairwise distinct
on-disk positions, every on-disk axis occupying a canonical slot is rewritten
through `canonical_axis_cast` for that slot; the cast gives a t-slot axis
without a time unit the default time unit, strips the unit of a c-slot axis
carrying one, and gives a z/y/x-slot axis without a space unit the default
space unit; and validation depends only on the axis names, so a type/unit
mismatch never fails construction. -/
theorem claim_canonical_type_coercion_amended :
    (∀ (axes : List Axis) (setup : AxesSetup) (a s : Bool) (M : AxesMapper),
      AxesMapper.init axes setup a s = Except.ok M →
      (∀ k1 k2 : String, ∀ i : Nat, k1 ∈ canonical_axes_order →
        k2 ∈ canonical_axes_order →
        M.index_mapping.lookup k1 = some (some i) →
        M.index_mapping.lookup k2 = some (some i) → k1 = k2) →
      ∀ k i, k ∈ canonical_axes_order → M.index_mapping.lookup k = some (some i) →
        i < axes.length
        ∧ M.on_disk_axes.getD i default_axis
            = (axes.getD i default_axis).canonical_axis_cast k)
    ∧ (∀ ax : Axis,
        ((¬ isTimeUnit ax.unit = true) →
          (ax.canonical_axis_cast "t").unit = some (AxisUnit.time TimeUnits.s)
            ∧ (ax.canonical_axis_cast "t").axis_type = some AxisType.time)
        ∧ (ax.unit ≠ none →
          (ax.canonical_axis_cast "c").unit = none
            ∧ (ax.canonical_axis_cast "c").axis_type = some AxisType.channel)
        ∧ (∀ k, (k = "z" ∨ k = "y" ∨ k = "x") → (¬ isSpaceUnit ax.unit = true) →
          (ax.canonical_axis_cast k).unit = some (AxisUnit.space SpaceUnits.um)
            ∧ (ax.canonical_axis_cast k).axis_type = some AxisType.space))
    ∧ (∀ (axes1 axes2 : List Axis) (setup : AxesSetup) (a s : Bool),
        on_disk_names_of axes1 = on_disk_names_of axes2 →
        validate_axes axes1 setup a s = validate_axes axes2 setup a s) := by
  refine ⟨?_, ?_, ?_⟩
  · intro axes setup a s M hM hinj k i hk hik
    obtain ⟨hval, hMeq⟩ := (init_ok_iff axes setup a s M).1 hM
    subst hMeq
    exact build_mapper_slot_cast axes setup a s hval hinj k i hk hik
  · intro ax
    refine ⟨?_, ?_, ?_⟩
    · intro h
      unfold Axis.canonical_axis_cast
      rw [if_pos rfl, if_pos (Or.inr h)]
      unfold Axis.implicit_type_cast
      rw [if_pos ⟨rfl, h⟩]
      exact ⟨rfl, rfl⟩
    · intro h
      unfold Axis.canonical_axis_cast
      rw [if_neg (by decide), if_pos rfl, if_pos (Or.inr h)]
      unfold Axis.implicit_type_cast
      rw [if_neg (by simp), if_neg (by simp), if_pos ⟨rfl, h⟩]
      exact ⟨rfl, rfl⟩
    · intro k hk h
      rcases hk with rfl | rfl | rfl
      all_goals {
        unfold Axis.canonical_axis_cast
        rw [if_neg (by decide), if_neg (by decide), if_pos (by decide),
          if_pos (Or.inr h)]
        unfold Axis.implicit_type_cast
        rw [if_neg (by simp), if_pos ⟨rfl, h⟩]
        exact ⟨rfl, rfl⟩
      }
  · intro axes1 axes2 setup a s h
    exact validate_axes_names_only axes1 axes2 setup a s h

/-- Witness for the amended C6: the default mapper over `z, y, x`; the axis in
the `x` slot is rewritten to the space type with the default space unit. -/
theorem claim_canonical_type_coercion_amended_witness :
    (build_mapper [⟨"z", none, none⟩, ⟨"y", none, none⟩, ⟨"x", none, none⟩]
        default_axes_setup false false).on_disk_axes.getD 2 default_axis
      = ⟨"x", some (AxisUnit.space SpaceUnits.um), some AxisType.space⟩ := by
  have hinj : ∀ k1 k2 : String, ∀ i : Nat, k1 ∈ canonical_axes_order →
      k2 ∈ canonical_axes_order →
      (build_mapper [⟨"z", none, none⟩, ⟨"y", none, none⟩, ⟨"x", none, none⟩]
        default_axes_setup false false).index_mapping.lookup k1 = some (some i) →
      (build_mapper [⟨"z", none, none⟩, ⟨"y", none, none⟩, ⟨"x", none, none⟩]
        default_axes_setup false false).index_mapping.lookup k2 = some (some i) →
      k1 = k2 := by
    intro k1 k2 i hk1 hk2 h1 h2
    fin_cases hk1 <;> fin_cases hk2 <;>
      first
      | rfl
      | (injection h1 with ha; exact Option.noConfusion ha)
      | (injection h2 with ha; exact Option.noConfusion ha)
      | (injection h1 with ha
         injection h2 with hb
         injection ha with ha2
         injection hb with hb2
         exact absurd (ha2.trans hb2.symm) (by decide))
  have h := (claim_canonical_type_coercion_amended.1
    [⟨"z", none, none⟩, ⟨"y", none, none⟩, ⟨"x", none, none⟩]
    default_axes_setup false false _ rfl hinj "x" 2 (by decide) rfl).2
  exact h.trans (by rfl)

theorem get_handler_go_ok {Raw E D : Type u} (raw : Raw) :
    ∀ (pre : List (String × (Raw → Except E D))) (v : String) (h : Raw → Except E D)
      (post : List (String × (Raw → Except E D))) (errs : List (String × E)) (d : D),
      (∀ p ∈ pre, ∃ e, p.2 raw = Except.error e) → h raw = Except.ok d →
      get_handler_go raw (pre ++ (v, h) :: post) errs = Except.ok (v, d) := by
  intro pre
  induction pre with
  | nil =>
    intro v h post errs d _ hok
    rw [List.nil_append]
    unfold get_handler_go
    rw [hok]
  | cons p0 rest ih =>
    intro v h post errs d hfail hok
    obtain ⟨v0, h0⟩ := p0
    obtain ⟨e0, he0⟩ := hfail (v0, h0) (List.mem_cons_self _ _)
    have he1 : h0 raw = Except.error e0 := he0
    rw [List.cons_append]
    unfold get_handler_go
    rw [he1]
    exact ih v h post (errs ++ [(v0, e0)]) d
      (fun p hp => hfail p (List.mem_cons_of_mem _ hp)) hok

theorem get_handler_go_allfail {Raw E D : Type u} (raw : Raw) :
    ∀ (l : List (String × (Raw → Except E D))) (errs : List (String × E)),
      (∀ p ∈ l, ∃ e, p.2 raw = Except.error e) →
      get_handler_go raw l errs = Except.error (errs ++ l.filterMap (fun p =>
        match p.2 raw with
        | Except.error e => some (p.1, e)
        | Except.ok _ => none)) := by
  intro l
  induction l with
  | nil =>
    intro errs _
    simp [get_handler_go]
  | cons p0 rest ih =>
    intro errs hfail
    obtain ⟨v0, h0⟩ := p0
    obtain ⟨e0, he0⟩ := hfail (v0, h0) (List.mem_cons_self _ _)
    have he1 : h0 raw = Except.error e0 := he0
    unfold get_handler_go
    rw [he1]
    show get_handler_go raw rest (errs ++ [(v0, e0)]) = _
    rw [ih (errs ++ [(v0, e0)]) (fun p hp => hfail p (List.mem_cons_of_mem _ hp))]
    rw [List.filterMap_cons]
    simp only [he1]
    rw [List.append_assoc]
    rfl

theorem allfail_filterMap_fst {Raw E D : Type u} (raw : Raw) :
    ∀ (l : List (String × (Raw → Except E D))),
      (∀ p ∈ l, ∃ e, p.2 raw = Except.error e) →
      (l.filterMap (fun p => match p.2 raw with
        | Except.error e => some (p.1, e)
        | Except.ok _ => none)).map Prod.fst
        = l.map Prod.fst := by
  intro l
  induction l with
  | nil => intro _; rfl
  | cons p0 rest ih =>
    intro hfail
    obtain ⟨v0, h0⟩ := p0
    obtain ⟨e0, he0⟩ := hfail (v0, h0) (List.mem_cons_self _ _)
    have he1 : h0 raw = Except.error e0 := he0
    rw [List.filterMap_cons]
    simp only [he1]
    rw [List.map_cons, List.map_cons,
      ih (fun p hp => hfail p (List.mem_cons_of_mem _ hp))]

/-- C2: `get_handler` tries the registered converters most-recently-registered
first (the reverse of registration order): the first version whose validation
succeeds yields the handler bound to that version; if every registered version
fails, the call fails with an aggregated error mapping every attempted version
to its specific validation failure. -/
theorem claim_get_handler_dispatch :
    (∀ (Raw E D : Type) (handlers : List (String × (Raw → Except E D))) (raw : Raw)
      (pre post : List (String × (Raw → Except E D))) (v : String)
      (h : Raw → Except E D) (d : D),
      handlers.reverse = pre ++ (v, h) :: post →
      (∀ p ∈ pre, ∃ e, p.2 raw = Except.error e) →
      h raw = Except.ok d →
      get_handler handlers raw = Except.ok (v, d))
    ∧ (∀ (Raw E D : Type) (handlers : List (String × (Raw → Except E D))) (raw : Raw),
      (∀ p ∈ handlers, ∃ e, p.2 raw = Except.error e) →
      get_handler handlers raw = Except.error
          (handlers.reverse.filterMap (fun p =>
            match p.2 raw with
            | Except.error e => some (p.1, e)
            | Except.ok _ => none))
        ∧ (handlers.reverse.filterMap (fun p =>
            match p.2 raw with
            | Except.error e => some (p.1, e)
            | Except.ok _ => none)).map Prod.fst = handlers.reverse.map Prod.fst) := by
  constructor
  · intro Raw E D handlers raw pre post v h d hsplit hfail hok
    unfold get_handler
    rw [hsplit]
    exact get_handler_go_ok raw pre v h post [] d hfail hok
  · intro Raw E D handlers raw hfail
    have hfail2 : ∀ p ∈ handlers.reverse, ∃ e, p.2 raw = Except.error e :=
      fun p hp => hfail p (List.mem_reverse.1 hp)
    constructor
    · unfold get_handler
      rw [get_handler_go_allfail raw handlers.reverse [] hfail2]
      rw [List.nil_append]
      rfl
    · exact allfail_filterMap_fst raw handlers.reverse hfail2

/-- Witness for C2: two registered versions, both failing on the raw document
`false`; the aggregated error lists the newest first, each with its own
failure. -/
theorem claim_get_handler_dispatch_witness :
    get_handler
        [("0.4", fun b : Bool => if b then Except.ok 7 else Except.error "bad04"),
         ("0.5", fun _ : Bool => Except.error "bad05")] false
      = Except.error [("0.5", "bad05"), ("0.4", "bad04")] := by
  have h := (claim_get_handler_dispatch.2 Bool String Nat
    [("0.4", fun b : Bool => if b then Except.ok 7 else Except.error "bad04"),
     ("0.5", fun _ : Bool => Except.error "bad05")] false ?_).1
  · exact h.trans (by rfl)
  · intro p hp
    rcases List.mem_cons.1 hp with rfl | hp2
    · exact ⟨"bad04", rfl⟩
    · rcases List.mem_cons.1 hp2 with rfl | hp3
      · exact ⟨"bad05", rfl⟩
      · cases hp3

/-- C8: constructing a `ZarrGroupHandler` with caching enabled and
`parallel_safe=True` always fails at construction with the mutual-exclusivity
`NgioValueError`, before the store is even opened; with either option alone
the mutual-exclusivity check never fires — caching alone propagates exactly
the store-opening outcome, and `parallel_safe` alone fails only when the
opening fails or the store is not a path. -/
theorem claim_cache_parallel_exclusive :
    (∀ (G : Type) (open_result : Except NgioError G) (store : String)
      (store_is_path : Bool) (mode : AccessMode),
      zarr_group_handler_init open_result store store_is_path true mode true
        = Except.error (NgioError.value mutual_exclusive_msg))
    ∧ (∀ (G : Type) (open_result : Except NgioError G) (store : String)
      (store_is_path : Bool) (mode : AccessMode),
      zarr_group_handler_init open_result store store_is_path true mode false
        = open_result.map (fun g =>
          { group := g, mode := mode, store := store, use_cache := true,
            parallel_safe := false, lock_path := none }))
    ∧ (∀ (G : Type) (open_result : Except NgioError G) (store : String)
      (store_is_path : Bool) (mode : AccessMode),
      zarr_group_handler_init open_result store store_is_path false mode true
        = open_result.bind (fun g =>
          if store_is_path then Except.ok
            { group := g, mode := mode, store := store, use_cache := false,
              parallel_safe := true, lock_path := some (store ++ ".lock") }
          else Except.error (NgioError.value store_needs_path_msg))) := by
  refine ⟨?_, ?_, ?_⟩
  · intro G open_result store store_is_path mode
    cases mode <;> rfl
  · intro G open_result store store_is_path mode
    cases mode <;> cases open_result <;> rfl
  · intro G open_result store store_is_path mode
    cases mode <;> cases open_result <;> cases store_is_path <;> rfl

/-- C4 counterexample: on a plate whose well `A/1` holds only the image `0`,
`get_image_path("A", 1, "x")` fails with the Python `ValueError` raised by the
source (`raise ValueError(f"Image {path} does not exist in well {row}{column}")`),
which is not a NotFound error. -/
theorem claim_get_image_path_counterexample :
    plate_get_image_path
        ⟨⟨["A"], ["1"], [], [⟨"A/1", "A", "1", none⟩]⟩, [("A/1", ⟨[⟨"0", none⟩]⟩)], []⟩
        "A" "1" "x"
      = Except.error (NgioError.pythonValue "Image x does not exist in well A1")
    ∧ is_not_found_error (plate_get_image_path
        ⟨⟨["A"], ["1"], [], [⟨"A/1", "A", "1", none⟩]⟩, [("A/1", ⟨[⟨"0", none⟩]⟩)], []⟩
        "A" "1" "x") = false :=
  ⟨rfl, rfl⟩

/-- C4 (amended): calling `get_image_path(row, column, path)` with a path that
is not present in the referenced well fails with a Python `ValueError` stating
that the image does not exist in that well (not with a NotFound error). -/
theorem claim_get_image_path_value_error (st : PlateState) (row column path : String)
    (w : WellDocument)
    (hw : load_well_doc st (well_path_of row column) = Except.ok w)
    (hmem : ¬ w.paths.contains path = true) :
    plate_get_image_path st row column path
      = Except.error
          (NgioError.pythonValue s!"Image {path} does not exist in well {row}{column}") := by
  unfold plate_get_image_path
  rw [hw, except_bind_ok, if_pos hmem]
  rfl

/-- Witness for the amended C4. -/
theorem claim_get_image_path_value_error_witness :
    plate_get_image_path
        ⟨⟨["A"], ["1"], [], [⟨"A/1", "A", "1", none⟩]⟩, [("A/1", ⟨[⟨"0", none⟩]⟩)], []⟩
        "A" "1" "x"
      = Except.error (NgioError.pythonValue "Image x does not exist in well A1") :=
  (claim_get_image_path_value_error
    ⟨⟨["A"], ["1"], [], [⟨"A/1", "A", "1", none⟩]⟩, [("A/1", ⟨[⟨"0", none⟩]⟩)], []⟩
    "A" "1" "x" ⟨[⟨"0", none⟩]⟩ rfl (by decide)).trans (by rfl)

/-- C3: `remove_image` first removes the matching image reference from the
well document (failing with not-found if absent) and persists it; it cascades
into removing the well from the plate document exactly when the well's image
list becomes empty, and a plate document with a well removed no longer lists
that well's path. -/
theorem claim_remove_image_cascade (st : PlateState) (row column image_path : String)
    (w : WellDocument) (atomic : Bool)
    (hw : load_well_doc st (well_path_of row column) = Except.ok w) :
    (¬ w.paths.contains image_path = true →
      plate_remove_image st row column image_path atomic
        = Except.error
            (NgioError.fileNotFound s!"Image {image_path} not found in the well."))
    ∧ (w.paths.contains image_path = true →
      (plate_remove_image st row column image_path atomic).map PlateState.docs
        = Except.ok
          ((if (w.images.filter (fun img => img.path ≠ image_path)).length = 0
              then st.plate.remove_well row column
              else st.plate),
            assoc_set st.well_docs (well_path_of row column)
              ⟨w.images.filter (fun img => img.path ≠ image_path)⟩))
    ∧ (∀ p : PlateDocument,
        ¬ ((p.remove_well row column).wells.map (fun wr => wr.path)).contains
          (well_path_of row column) = true) := by
  refine ⟨?_, ?_, ?_⟩
  · intro hmem
    have hrem : w.remove_image image_path
        = Except.error
            (NgioError.fileNotFound s!"Image {image_path} not found in the well.") := by
      unfold WellDocument.remove_image
      rw [if_neg hmem]
    unfold plate_remove_image
    rw [hw, except_bind_ok]
    unfold with_lock
    cases atomic
    · simp only [Bool.false_eq_true, if_false]
      rw [hrem]
      rfl
    · simp only [if_true]
      rw [hrem]
      rfl
  · intro hmem
    have hrem : w.remove_image image_path
        = Except.ok ⟨w.images.filter (fun img => img.path ≠ image_path)⟩ := by
      unfold WellDocument.remove_image
      rw [if_pos hmem]
    unfold plate_remove_image
    rw [hw, except_bind_ok]
    unfold with_lock plate_remove_well with_lock
    by_cases hlen : (w.images.filter (fun img => img.path ≠ image_path)).length = 0
    · have hlen2 : (⟨w.images.filter (fun img => img.path ≠ image_path)⟩ :
          WellDocument).paths.length = 0 := by
        show ((w.images.filter (fun img => img.path ≠ image_path)).map
          (fun img => img.path)).length = 0
        rw [List.length_map]
        exact hlen
      rw [if_pos hlen]
      cases atomic
      · simp only [Bool.false_eq_true, if_false]
        rw [hrem]
        simp only [except_bind_ok]
        rw [if_pos hlen2]
        rfl
      · simp only [if_true]
        rw [hrem]
        simp only [except_bind_ok]
        rw [if_pos hlen2]
        rfl
    · have hlen2 : ¬ (⟨w.images.filter (fun img => img.path ≠ image_path)⟩ :
          WellDocument).paths.length = 0 := by
        show ¬ ((w.images.filter (fun img => img.path ≠ image_path)).map
          (fun img => img.path)).length = 0
        rw [List.length_map]
        exact hlen
      rw [if_neg hlen]
      cases atomic
      · simp only [Bool.false_eq_true, if_false]
        rw [hrem]
        simp only [except_bind_ok]
        rw [if_neg hlen2]
        rfl
      · simp only [if_true]
        rw [hrem]
        simp only [except_bind_ok]
        rw [if_neg hlen2]
        rfl
  · intro p
    simp only [PlateDocument.remove_well]
    simp [List.mem_map, List.mem_filter]

/-- Witness for C3: removing the last image `0` of well `A/1` cascades, so the
plate document's well list becomes empty while the well document persists with
no images. -/
theorem claim_remove_image_cascade_witness :
    (plate_remove_image
        ⟨⟨["A"], ["1"], [], [⟨"A/1", "A", "1", none⟩]⟩, [("A/1", ⟨[⟨"0", none⟩]⟩)], []⟩
        "A" "1" "0" false).map PlateState.docs
      = Except.ok (⟨["A"], ["1"], [], []⟩, [("A/1", ⟨[]⟩)]) := by
  have h := (claim_remove_image_cascade
    ⟨⟨["A"], ["1"], [], [⟨"A/1", "A", "1", none⟩]⟩, [("A/1", ⟨[⟨"0", none⟩]⟩)], []⟩
    "A" "1" "0" ⟨[⟨"0", none⟩]⟩ false rfl).2.1 (by decide)
  exact h.trans (by rfl)

/-- C9: for a single process on the same initial store state, the atomic and
non-atomic variants of `add_image` and `remove_image` produce identical final
plate and well documents: the atomic flag only selects the lock used around
each phase. -/
theorem claim_atomic_plain_equivalence :
    (∀ (st : PlateState) (row column image_path : String)
      (acq_id : Option Int) (acq_name : Option String),
      (plate_atomic_add_image st row column image_path acq_id acq_name).map PlateState.docs
        = (plate_add_image_plain st row column image_path acq_id acq_name).map
            PlateState.docs)
    ∧ (∀ (st : PlateState) (row column image_path : String),
      (plate_atomic_remove_image st row column image_path).map PlateState.docs
        = (plate_remove_image_plain st row column image_path).map PlateState.docs) := by
  constructor
  · intro st row column image_path acq_id acq_name
    rfl
  · intro st row column image_path
    unfold plate_atomic_remove_image plate_remove_image_plain plate_remove_image
    cases hload : load_well_doc st (well_path_of row column) with
    | error e => rfl
    | ok w =>
      simp only [except_bind_ok]
      unfold with_lock plate_remove_well with_lock
      simp only [if_true, Bool.false_eq_true, if_false]
      cases hrem : w.remove_image image_path with
      | error e => rfl
      | ok w2 =>
        simp only [except_bind_ok]
        by_cases hlen : w2.paths.length = 0
        · rw [if_pos hlen, if_pos hlen]
          rfl
        · rw [if_neg hlen, if_neg hlen]
          rfl
